import Mathlib

/-!
Verification of the Orbit webcam face-tracking/recognition engine
(`src/backend/facial_recognition/`).

The definitions below are shallow embeddings of the Python source:

* `Orbit.Sched`   — the analysis-queue submission logic of
  `WebcamFaceRecognition._queue_face_for_analysis` and the cooldown gate in
  `detect_faces_in_frame` (webcam_recognition.py).
* `Orbit.Search`  — the search worker's cache-persistence logic
  (`_search_worker` / `_update_cache_with_search_results`).
* `Orbit.Flag`    — the `recognized` field computed in
  `process_frame_with_analysis`.
* `Orbit.Sim`     — the cosine-similarity utilities of recognition.py
  (`_calculate_similarity`) and core.py (`cosine_similarity_0_1`), and the
  best-match folds of `recognize_face`.
* `Orbit.Tracker` — `_assign_tracks` (track assignment, creation, expiry,
  presence events).
* `Orbit.Esc`     — the unknown-person escalator
  (`_check_unknown_person_timeout`, `_update_unknown_person_tracking`,
  `_log_unknown_person`).
* `Orbit.Dedup`   — the detection deduplicator of recognition.py
  (`_nms`, `_deduplicate_by_embedding`, orchestrated by `detect_faces`).

Python floats are modelled as exact rationals (ℚ) where the source only
adds, multiplies, divides and compares, and as reals (ℝ) where the source
takes square roots (`np.linalg.norm`).
-/

namespace Orbit

/-! ## Analysis scheduler (claim C8)

Model of `WebcamFaceRecognition._queue_face_for_analysis` together with the
cooldown gate in `detect_faces_in_frame`.  The analysis queue is
`queue.Queue(maxsize=3)`; `put(..., block=False)` raises `queue.Full` exactly
when the queue already holds 3 items, and the exception is caught and the
job silently dropped. -/

namespace Sched

/-- An analysis job as assembled in `_queue_face_for_analysis`: face key,
the size of the cropped face region (`face_region.size`) and the enqueue
timestamp. -/
structure AnalysisJob where
  faceKey : String
  regionSize : Nat
  timestamp : ℚ
deriving DecidableEq, Repr

/-- Capacity of `self.analysis_queue = queue.Queue(maxsize=3)`. -/
def analysisQueueCapacity : Nat := 3

/-- Cooldown `self.analysis_cooldown = 1.0` seconds. -/
def analysisCooldown : ℚ := 1

/-- Embedding of `_queue_face_for_analysis`: nothing is queued for an empty
crop (`face_region.size > 0` guard); a full queue makes the non-blocking
`put` raise `queue.Full`, which is caught and the job dropped, leaving the
queue unchanged. -/
def tryQueueAnalysis (q : List AnalysisJob) (j : AnalysisJob) : List AnalysisJob :=
  if j.regionSize = 0 then q
  else if analysisQueueCapacity ≤ q.length then q
  else q ++ [j]

/-- Per-face scheduler state: the shared analysis queue, the cooldown stamp
`tracked_faces[face_id]` (0 when absent, via `.get(face_id, 0)`) and the
in-progress marker `face_analysis_status[face_id]`. -/
structure FaceSched where
  queue : List AnalysisJob
  trackedTime : ℚ
  statusTime : Option ℚ
deriving DecidableEq, Repr

/-- Embedding of the cooldown gate in `detect_faces_in_frame`: when
`current_time - last_analysis > analysis_cooldown` the face is submitted
(possibly dropped inside `tryQueueAnalysis`) and both stamps are set to
`current_time`; otherwise nothing changes.  The returned Bool records
whether a submission was attempted. -/
def schedStep (now : ℚ) (j : AnalysisJob) (s : FaceSched) : FaceSched × Bool :=
  if analysisCooldown < now - s.trackedTime then
    ({ queue := tryQueueAnalysis s.queue j, trackedTime := now, statusTime := some now }, true)
  else (s, false)

end Sched

/-! ## Search worker persistence (claim C9)

Model of the outcome handling in `_search_worker`.  The worker calls
`_run_image_search_sync`, which returns the pipeline's result dict, or
`None` when the search raised an exception.  The worker then runs
`if result: ... _update_cache_with_search_results(...)` — so the cache
update (which saves the face crop and a JSON entry with
`search_status` `"successful"` or `"failed"`) happens only for a truthy
result. -/

namespace Search

/-- Result dict of the search pipeline, reduced to the fields the worker
branches on: `result.get("success")` and
`result.get("analysis", {}).get("found_person")`. -/
structure SearchOutcome where
  success : Bool
  foundPerson : Bool
deriving DecidableEq, Repr

/-- A profile-store entry as written by `_update_cache_with_search_results`:
the face image is saved and the JSON carries `search_status`. -/
structure CacheEntry where
  trackId : Nat
  searchStatus : String
  hasImage : Bool
deriving DecidableEq, Repr

/-- Embedding of `_update_cache_with_search_results`: the face image is
always written and the entry is tagged `"successful"` exactly when
`result.get("success") and result.get("analysis", {}).get("found_person")`
holds, `"failed"` otherwise. -/
def updateCacheWithSearchResults (store : List CacheEntry) (tid : Nat)
    (r : SearchOutcome) : List CacheEntry :=
  store ++ [{ trackId := tid,
              searchStatus := if r.success ∧ r.foundPerson then "successful" else "failed",
              hasImage := true }]

/-- Embedding of the per-job outcome handling in `_search_worker`:
`outcome = none` models `_run_image_search_sync` returning `None` (its
`except` path, taken when the external search raises); on
`if result:` being false the worker only logs and performs no cache
update. -/
def searchWorkerHandle (store : List CacheEntry) (tid : Nat)
    (outcome : Option SearchOutcome) : List CacheEntry :=
  match outcome with
  | some r => updateCacheWithSearchResults store tid r
  | none => store

end Search

/-! ## Per-frame recognized flag (claim C10)

Model of the line in `process_frame_with_analysis`:
`recognized = bool(detection.name and detection.similarity and detection.similarity >= 0.7)`.
Python truthiness: `None` and the empty string are falsy for `name`;
`0.0` is falsy for `similarity`. -/

namespace Flag

/-- Embedding of the `recognized` expression, including Python truthiness
of the `name` and `similarity` operands of `and`. -/
def recognizedFlag (name : Option String) (similarity : ℚ) : Bool :=
  match name with
  | none => false
  | some s =>
    if s = "" then false
    else if similarity = 0 then false
    else decide ((7 : ℚ)/10 ≤ similarity)

end Flag

/-! ## Similarity utilities and best-match folds (claims C6, C7)

Model of `FaceRecognition._calculate_similarity` (recognition.py 370-410)
and `cosine_similarity_0_1` (core.py 237-245): L2-normalize both
embeddings, take the dot product (cosine in [-1,1]), map through
`(cos + 1)/2` and clamp to [0,1]; a zero-norm input short-circuits to 0.
The two Python functions perform the identical computation, so one Lean
function embeds both.  Reals are used because `np.linalg.norm` is a square
root. -/

namespace Sim

/-- Sum of squares of a vector, so that `np.linalg.norm e = sqrt (sumSq e)`. -/
def sumSq (e : List ℝ) : ℝ := (e.map (fun x => x * x)).sum

/-- Embedding of `np.linalg.norm` (L2 norm). -/
noncomputable def norm2 (e : List ℝ) : ℝ := Real.sqrt (sumSq e)

/-- Embedding of `np.dot` on equal-length vectors. -/
def dotList (a b : List ℝ) : ℝ := (List.zipWith (fun x y => x * y) a b).sum

/-- Embedding of `_calculate_similarity` / `cosine_similarity_0_1`:
normalize, dot, map `(cos+1)/2`, clamp with `max(0.0, min(1.0, ...))`;
zero norms return 0.0. -/
noncomputable def calculateSimilarity (e1 e2 : List ℝ) : ℝ :=
  if norm2 e1 = 0 ∨ norm2 e2 = 0 then 0
  else
    max 0 (min 1
      ((dotList (e1.map (fun x => x / norm2 e1)) (e2.map (fun x => x / norm2 e2)) + 1) / 2))

theorem sumSq_nonneg (e : List ℝ) : 0 ≤ sumSq e := by
  refine List.sum_nonneg ?_
  intro x hx
  rcases List.mem_map.1 hx with ⟨y, _, rfl⟩
  exact mul_self_nonneg y

theorem dotList_self (e : List ℝ) : dotList e e = sumSq e := by
  induction e with
  | nil => rfl
  | cons x xs ih =>
    unfold dotList sumSq at ih ⊢
    simp only [List.zipWith_cons_cons, List.sum_cons, List.map_cons]
    rw [ih]

theorem dotList_map_div (a b : List ℝ) (c d : ℝ) :
    dotList (a.map (fun x => x / c)) (b.map (fun x => x / d)) = dotList a b / (c * d) := by
  induction a generalizing b with
  | nil => simp [dotList]
  | cons x xs ih =>
    cases b with
    | nil => simp [dotList]
    | cons y ys =>
      simp only [List.map_cons, dotList, List.zipWith_cons_cons, List.sum_cons] at ih ⊢
      rw [ih, div_mul_div_comm, div_add_div_same]

theorem norm2_ne_zero_of_sumSq {e : List ℝ} (h : sumSq e ≠ 0) : norm2 e ≠ 0 := by
  intro hz
  exact h ((Real.sqrt_eq_zero (sumSq_nonneg e)).1 hz)

end Sim

/-! Best-match folds.  `FaceRecognition.recognize_face`
(recognition.py 82-118) folds over the cache keeping the best
strictly-greater similarity, then returns the match only when
`best_match and best_similarity > self.recognition_threshold` (strict).
`FacialRecognitionModule.recognize_face` (core.py 225-259, DeepFace path)
is the same fold with the final test
`best_name and best_sim >= self.recognition_threshold` (non-strict), and
`compare_embedding_with_cached_faces` (core.py 375-430) also uses `>=`.
Python truthiness of `best_match` makes an empty-string name falsy. -/

namespace Sim

/-- Truthiness of the `best_match` operand of `and`: `None` and `""` are
falsy. -/
def truthyName : Option String → Bool
  | none => false
  | some s => decide (s ≠ "")

/-- One iteration of the accumulation loop: `if similarity >
best_similarity: best_similarity = similarity; best_match = name`. -/
noncomputable def recognizeStep (q : List ℝ) (acc : Option String × ℝ)
    (p : String × List ℝ) : Option String × ℝ :=
  if acc.2 < calculateSimilarity p.2 q then (some p.1, calculateSimilarity p.2 q) else acc

/-- The shared accumulation loop over the cache, starting from `(None, 0)`. -/
noncomputable def recognizeFold (cache : List (String × List ℝ)) (q : List ℝ) :
    Option String × ℝ :=
  cache.foldl (recognizeStep q) (none, 0)

/-- Embedding of `FaceRecognition.recognize_face`: strict `>` against the
threshold. -/
noncomputable def recognizeFaceStrict (cache : List (String × List ℝ)) (q : List ℝ)
    (thr : ℝ) : Option String × ℝ :=
  let b := recognizeFold cache q
  if truthyName b.1 ∧ thr < b.2 then b else (none, b.2)

/-- Embedding of `FacialRecognitionModule.recognize_face` (and of the
threshold test of `compare_embedding_with_cached_faces`): non-strict `>=`. -/
noncomputable def coreRecognizeFace (cache : List (String × List ℝ)) (q : List ℝ)
    (thr : ℝ) : Option String × ℝ :=
  let b := recognizeFold cache q
  if truthyName b.1 ∧ thr ≤ b.2 then b else (none, b.2)

/-- The maximum mapped cosine similarity over the cache (0 for an empty
cache), which is what the fold's `best_similarity` component computes. -/
noncomputable def maxSim (cache : List (String × List ℝ)) (q : List ℝ) : ℝ :=
  cache.foldl (fun m p => max m (calculateSimilarity p.2 q)) 0

theorem calculateSimilarity_nonneg (e1 e2 : List ℝ) : 0 ≤ calculateSimilarity e1 e2 := by
  unfold calculateSimilarity
  by_cases h : norm2 e1 = 0 ∨ norm2 e2 = 0
  · rw [if_pos h]
  · rw [if_neg h]; exact le_max_left 0 _

theorem calculateSimilarity_le_one (e1 e2 : List ℝ) : calculateSimilarity e1 e2 ≤ 1 := by
  unfold calculateSimilarity
  by_cases h : norm2 e1 = 0 ∨ norm2 e2 = 0
  · rw [if_pos h]; norm_num
  · rw [if_neg h]
    exact max_le (by norm_num) (min_le_left 1 _)

theorem calculateSimilarity_self {e : List ℝ} (h : sumSq e ≠ 0) :
    calculateSimilarity e e = 1 := by
  have hn : norm2 e ≠ 0 := norm2_ne_zero_of_sumSq h
  unfold calculateSimilarity
  rw [if_neg (by simp [hn])]
  rw [dotList_map_div, dotList_self]
  have hsq : norm2 e * norm2 e = sumSq e := Real.mul_self_sqrt (sumSq_nonneg e)
  rw [hsq, div_self h]
  norm_num

theorem recognizeFold_snd_eq (q : List ℝ) (cache : List (String × List ℝ)) :
    ∀ acc : Option String × ℝ,
      (cache.foldl (recognizeStep q) acc).2 =
        cache.foldl (fun m p => max m (calculateSimilarity p.2 q)) acc.2 := by
  induction cache with
  | nil => intro acc; rfl
  | cons p ps ih =>
    intro acc
    simp only [List.foldl_cons]
    rw [ih]
    congr 1
    unfold recognizeStep
    by_cases h : acc.2 < calculateSimilarity p.2 q
    · rw [if_pos h]; exact (max_eq_right (le_of_lt h)).symm
    · rw [if_neg h]; exact (max_eq_left (not_lt.1 h)).symm

theorem recognizeFold_inv (q : List ℝ) (cache : List (String × List ℝ))
    (hkeys : ∀ p ∈ cache, p.1 ≠ "") :
    ∀ acc : Option String × ℝ, 0 ≤ acc.2 → (acc.1.isSome ↔ 0 < acc.2) →
      truthyName acc.1 = acc.1.isSome →
      0 ≤ (cache.foldl (recognizeStep q) acc).2 ∧
      ((cache.foldl (recognizeStep q) acc).1.isSome ↔
        0 < (cache.foldl (recognizeStep q) acc).2) ∧
      truthyName (cache.foldl (recognizeStep q) acc).1 =
        (cache.foldl (recognizeStep q) acc).1.isSome := by
  induction cache with
  | nil => intro acc h0 hiff htr; exact ⟨h0, hiff, htr⟩
  | cons p ps ih =>
    intro acc h0 hiff htr
    simp only [List.foldl_cons]
    refine ih (fun x hx => hkeys x (List.mem_cons_of_mem p hx)) _ ?_ ?_ ?_
    · unfold recognizeStep
      by_cases h : acc.2 < calculateSimilarity p.2 q
      · rw [if_pos h]; exact calculateSimilarity_nonneg p.2 q
      · rw [if_neg h]; exact h0
    · unfold recognizeStep
      by_cases h : acc.2 < calculateSimilarity p.2 q
      · rw [if_pos h]; simp; exact lt_of_le_of_lt h0 h
      · rw [if_neg h]; exact hiff
    · unfold recognizeStep
      by_cases h : acc.2 < calculateSimilarity p.2 q
      · rw [if_pos h]
        simp [truthyName, hkeys p (List.mem_cons_self p ps)]
      · rw [if_neg h]; exact htr

end Sim

/-- CLAIM C6: the similarity function of recognition.py/core.py always
returns a value in [0,1], and equals 1.0 on any pair of identical non-zero
embeddings. -/
theorem c6_similarity_range_and_self :
    (∀ e1 e2 : List ℝ,
      0 ≤ Sim.calculateSimilarity e1 e2 ∧ Sim.calculateSimilarity e1 e2 ≤ 1) ∧
    (∀ e : List ℝ, Sim.sumSq e ≠ 0 → Sim.calculateSimilarity e e = 1) :=
  ⟨fun e1 e2 => ⟨Sim.calculateSimilarity_nonneg e1 e2, Sim.calculateSimilarity_le_one e1 e2⟩,
   fun _ h => Sim.calculateSimilarity_self h⟩

/-- CLAIM C6 witness: the range bounds at `[1,2]`,`[3,4]` and the self
similarity of the non-zero embedding `[2,0]`. -/
theorem c6_similarity_range_and_self_witness :
    (0 ≤ Sim.calculateSimilarity [1, 2] [3, 4] ∧
      Sim.calculateSimilarity [1, 2] [3, 4] ≤ 1) ∧
    Sim.calculateSimilarity [2, 0] [2, 0] = 1 :=
  ⟨c6_similarity_range_and_self.1 [1, 2] [3, 4],
   c6_similarity_range_and_self.2 [2, 0] (by norm_num [Sim.sumSq])⟩

/-- CLAIM C7 counterexample: `FaceRecognition.recognize_face` uses a strict
`>` against the threshold, so with cache `{"a" ↦ e}`, query `e` (similarity
exactly 1.0) and configured threshold 1.0 the maximum similarity reaches
the threshold yet no match is returned — refuting "returns a named match
exactly when the maximum mapped cosine similarity is >= the configured
recognition threshold". -/
theorem c7_strict_threshold_counterexample :
    Sim.recognizeFaceStrict [("a", [1])] [1] 1 = (none, 1) ∧
    (1 : ℝ) ≤ Sim.maxSim [("a", [1])] [1] := by
  have hs : Sim.calculateSimilarity [1] [1] = 1 :=
    Sim.calculateSimilarity_self (by norm_num [Sim.sumSq])
  have hfold : Sim.recognizeFold [("a", [1])] [1] = (some "a", 1) := by
    unfold Sim.recognizeFold Sim.recognizeStep
    simp [hs]
  constructor
  · unfold Sim.recognizeFaceStrict
    rw [hfold]
    simp [Sim.truthyName]
  · unfold Sim.maxSim
    simp [hs]

/-- CLAIM C7 (amended): the returned score is always the maximum mapped
similarity over the cache (0 for an empty cache); given non-empty cache
keys, `FaceRecognition.recognize_face` returns a named match exactly when
that maximum is STRICTLY greater than the threshold (for any threshold
≥ 0), while the core module's `recognize_face` /
`compare_embedding_with_cached_faces` return a named match exactly when the
maximum is ≥ the threshold (for any threshold > 0). -/
theorem c7_best_match_thresholds (cache : List (String × List ℝ)) (q : List ℝ)
    (thr : ℝ) (hkeys : ∀ p ∈ cache, p.1 ≠ "") :
    (Sim.recognizeFaceStrict cache q thr).2 = Sim.maxSim cache q ∧
    (0 ≤ thr →
      ((Sim.recognizeFaceStrict cache q thr).1.isSome ↔ thr < Sim.maxSim cache q)) ∧
    (Sim.coreRecognizeFace cache q thr).2 = Sim.maxSim cache q ∧
    (0 < thr →
      ((Sim.coreRecognizeFace cache q thr).1.isSome ↔ thr ≤ Sim.maxSim cache q)) := by
  have hfold_def :
      List.foldl (Sim.recognizeStep q) ((none : Option String), (0 : ℝ)) cache =
        Sim.recognizeFold cache q := rfl
  have hsnd : (Sim.recognizeFold cache q).2 = Sim.maxSim cache q :=
    Sim.recognizeFold_snd_eq q cache (none, 0)
  obtain ⟨hpos, hiff, htr⟩ := Sim.recognizeFold_inv q cache hkeys (none, 0) le_rfl
    (by simp) (by simp [Sim.truthyName])
  rw [hfold_def] at hpos hiff htr
  refine ⟨?_, ?_, ?_, ?_⟩
  · unfold Sim.recognizeFaceStrict
    by_cases h : Sim.truthyName (Sim.recognizeFold cache q).1 = true ∧
        thr < (Sim.recognizeFold cache q).2
    · rw [if_pos h]; exact hsnd
    · rw [if_neg h]; exact hsnd
  · intro hthr
    rw [← hsnd]
    unfold Sim.recognizeFaceStrict
    by_cases h : Sim.truthyName (Sim.recognizeFold cache q).1 = true ∧
        thr < (Sim.recognizeFold cache q).2
    · rw [if_pos h]
      exact ⟨fun _ => h.2, fun _ => htr ▸ h.1⟩
    · rw [if_neg h]
      simp only [Option.isSome_none, Bool.false_eq_true, false_iff]
      intro hlt
      exact h ⟨htr.trans (hiff.2 (lt_of_le_of_lt hthr hlt)), hlt⟩
  · unfold Sim.coreRecognizeFace
    by_cases h : Sim.truthyName (Sim.recognizeFold cache q).1 = true ∧
        thr ≤ (Sim.recognizeFold cache q).2
    · rw [if_pos h]; exact hsnd
    · rw [if_neg h]; exact hsnd
  · intro hthr
    rw [← hsnd]
    unfold Sim.coreRecognizeFace
    by_cases h : Sim.truthyName (Sim.recognizeFold cache q).1 = true ∧
        thr ≤ (Sim.recognizeFold cache q).2
    · rw [if_pos h]
      exact ⟨fun _ => h.2, fun _ => htr ▸ h.1⟩
    · rw [if_neg h]
      simp only [Option.isSome_none, Bool.false_eq_true, false_iff]
      intro hle
      exact h ⟨htr.trans (hiff.2 (lt_of_lt_of_le hthr hle)), hle⟩

/-- CLAIM C7 witness: the amended theorem instantiated at the one-entry
cache `{"a" ↦ [1]}`, query `[1]`, threshold `1/2`. -/
theorem c7_best_match_thresholds_witness :
    (Sim.recognizeFaceStrict [("a", [1])] [1] (1/2)).2 = Sim.maxSim [("a", [1])] [1] ∧
    ((0 : ℝ) ≤ 1/2 →
      ((Sim.recognizeFaceStrict [("a", [1])] [1] (1/2)).1.isSome ↔
        (1 : ℝ)/2 < Sim.maxSim [("a", [1])] [1])) ∧
    (Sim.coreRecognizeFace [("a", [1])] [1] (1/2)).2 = Sim.maxSim [("a", [1])] [1] ∧
    ((0 : ℝ) < 1/2 →
      ((Sim.coreRecognizeFace [("a", [1])] [1] (1/2)).1.isSome ↔
        (1 : ℝ)/2 ≤ Sim.maxSim [("a", [1])] [1])) :=
  c7_best_match_thresholds [("a", [1])] [1] (1/2) (by simp)

/-! ## Track assigner (claims C2, C3, C4)

Model of `WebcamFaceRecognition._assign_tracks`
(webcam_recognition.py 1550-1642).  The Python dict `self.active_tracks`
is modelled as an insertion-ordered association list with unique keys
(updates rewrite in place, new tracks are appended, deletions filter).
`track_items = list(self.active_tracks.items())` is snapshotted before the
per-detection loop; a matched track enters `used_tracks` and is skipped in
every later iteration, so later detections only ever compare against
not-yet-matched snapshot entries, whose boxes are unmutated. -/

namespace Tracker

/-- An integer pixel box `[x1, y1, x2, y2]` (the detections passed to
`_assign_tracks` are `[int(x) for x in face.bbox.astype(int)]`). -/
structure Box where
  x1 : Int
  y1 : Int
  x2 : Int
  y2 : Int
deriving DecidableEq, Repr

/-- Embedding of the local `iou` helper inside `_assign_tracks`:
`inter / union if union > 0 else 0.0`, with clamped side lengths for the
intersection AND clamped areas (`max(0, ...)` on each factor). -/
def iouT (a b : Box) : ℚ :=
  let inter : Int := (max 0 (min a.x2 b.x2 - max a.x1 b.x1)) *
                     (max 0 (min a.y2 b.y2 - max a.y1 b.y1))
  let areaA : Int := (max 0 (a.x2 - a.x1)) * (max 0 (a.y2 - a.y1))
  let areaB : Int := (max 0 (b.x2 - b.x1)) * (max 0 (b.y2 - b.y1))
  let union : Int := areaA + areaB - inter
  if 0 < union then (inter : ℚ) / (union : ℚ) else 0

/-- Center of a box as in `center(b) = ((b[0]+b[2])//2, (b[1]+b[3])//2)`;
Python `//` is floor division. -/
def centerX (b : Box) : Int := Int.fdiv (b.x1 + b.x2) 2

/-- Second coordinate of the center. -/
def centerY (b : Box) : Int := Int.fdiv (b.y1 + b.y2) 2

/-- Squared center distance `d = (tx - cx)**2 + (ty - cy)**2` between a
track box `t` and a detection box `d`. -/
def sqCenterDist (t d : Box) : Int :=
  (centerX t - centerX d) ^ 2 + (centerY t - centerY d) ^ 2

/-- A track record `{bbox, last_seen, name, similarity, recognized}`. -/
structure Track where
  bbox : Box
  lastSeen : ℚ
  name : Option String
  similarity : ℚ
  recognized : Bool
deriving DecidableEq, Repr

/-- A presence event `{'event': ..., 'track_id': ..., 'timestamp': ...}`. -/
structure PEvent where
  kind : String
  trackId : Nat
  timestamp : ℚ
deriving DecidableEq, Repr

/-- The tracker state: `next_track_id`, `active_tracks` (insertion-ordered)
and the `presence_events` buffer. -/
structure TState where
  nextTrackId : Nat
  activeTracks : List (Nat × Track)
  presenceEvents : List PEvent
deriving DecidableEq, Repr

/-- Initial state set in `__init__`: `next_track_id = 1`, empty maps. -/
def initTState : TState := ⟨1, [], []⟩

/-- IoU acceptance threshold `best_score >= 0.3`. -/
def iouThreshold : ℚ := 3/10

/-- Centroid fallback threshold `min_dist <= 120**2`. -/
def distThreshold : Int := 120 ^ 2

/-- Expiry timeout `self.track_timeout = 1.5`. -/
def trackTimeout : ℚ := 3/2

/-- One iteration of the best-IoU scan: skip used tracks, update on strict
`score > best_score`. -/
def bestIoUStep (used : List Nat) (box : Box) (acc : Option Nat × ℚ)
    (p : Nat × Track) : Option Nat × ℚ :=
  if p.1 ∈ used then acc
  else if acc.2 < iouT box p.2.bbox then (some p.1, iouT box p.2.bbox) else acc

/-- The greedy best-IoU scan over the snapshot, starting from
`best_track = None; best_score = -1.0`. -/
def bestIoU (items : List (Nat × Track)) (used : List Nat) (box : Box) :
    Option Nat × ℚ :=
  items.foldl (bestIoUStep used box) (none, -1)

/-- One iteration of the centroid-distance fallback scan: skip used tracks,
update on strict `d < min_dist`. -/
def nearestCenterStep (used : List Nat) (box : Box) (acc : Option Nat × Int)
    (p : Nat × Track) : Option Nat × Int :=
  if p.1 ∈ used then acc
  else if sqCenterDist p.2.bbox box < acc.2 then (some p.1, sqCenterDist p.2.bbox box)
  else acc

/-- The centroid-distance fallback scan, starting from
`min_dist = 1e9; min_track = None`. -/
def nearestCenter (items : List (Nat × Track)) (used : List Nat) (box : Box) :
    Option Nat × Int :=
  items.foldl (nearestCenterStep used box) (none, 10 ^ 9)

/-- Decide the match for one detection: accept the best IoU when
`best_track is not None and best_score >= 0.3`, otherwise accept the
nearest centroid when `min_track is not None and min_dist <= 120**2`,
otherwise no match (a new track will be created). -/
def matchOne (items : List (Nat × Track)) (used : List Nat) (box : Box) :
    Option Nat :=
  let bi := bestIoU items used box
  if bi.1.isSome ∧ iouThreshold ≤ bi.2 then bi.1
  else
    let nc := nearestCenter items used box
    if nc.1.isSome ∧ nc.2 ≤ distThreshold then nc.1 else none

/-- In-place update of a matched track's box and `last_seen`. -/
def updTrack (m : List (Nat × Track)) (tid : Nat) (box : Box) (now : ℚ) :
    List (Nat × Track) :=
  m.map (fun p => if p.1 = tid then (p.1, { p.2 with bbox := box, lastSeen := now }) else p)

/-- A freshly created track record. -/
def newTrack (box : Box) (now : ℚ) : Track :=
  { bbox := box, lastSeen := now, name := none, similarity := 0, recognized := false }

/-- The per-detection loop of `_assign_tracks`: match against the snapshot
`items` (skipping `used`), update or create tracks, emit `entered` events,
and return the assignment list in detection order. -/
def phase1 (items : List (Nat × Track)) (now : ℚ) (dets : List Box)
    (used : List Nat) (s : TState) : TState × List Nat :=
  match dets with
  | [] => (s, [])
  | box :: rest =>
    match matchOne items used box with
    | some tid =>
      let s1 := { s with activeTracks := updTrack s.activeTracks tid box now }
      let r := phase1 items now rest (tid :: used) s1
      (r.1, tid :: r.2)
    | none =>
      let tid := s.nextTrackId
      let s1 : TState :=
        { nextTrackId := tid + 1,
          activeTracks := s.activeTracks ++ [(tid, newTrack box now)],
          presenceEvents := s.presenceEvents ++ [⟨"entered", tid, now⟩] }
      let r := phase1 items now rest (tid :: used) s1
      (r.1, tid :: r.2)

/-- The expiry pass: every active track with
`current_time - last_seen > track_timeout` appends one `left` event (in map
order) and is then deleted.  Also returns the removed ids (`to_delete`). -/
def expire (now : ℚ) (s : TState) : TState × List Nat :=
  let stale := s.activeTracks.filter (fun p => decide (trackTimeout < now - p.2.lastSeen))
  ({ s with
      presenceEvents := s.presenceEvents ++ stale.map (fun p => ⟨"left", p.1, now⟩),
      activeTracks :=
        s.activeTracks.filter (fun p => !decide (trackTimeout < now - p.2.lastSeen)) },
   stale.map (fun p => p.1))

/-- Embedding of one `_assign_tracks` call: returns the new state, the
assignment list (detection order) and the removed track ids. -/
def assignTracks (now : ℚ) (dets : List Box) (s : TState) :
    TState × List Nat × List Nat :=
  let r1 := phase1 s.activeTracks now dets [] s
  let r2 := expire now r1.1
  (r2.1, r1.2, r2.2)

/-- A session run: `_assign_tracks` applied to a sequence of frames
`(current_time, detected_bboxes)` starting from the freshly initialized
state. -/
def runTracker (frames : List (ℚ × List Box)) : TState :=
  frames.foldl (fun s f => (assignTracks f.1 f.2 s).1) initTState

/-- Number of `left` events for a given track id in an event list. -/
def countLeft (tid : Nat) (evs : List PEvent) : Nat :=
  (evs.filter (fun e => e.kind = "left" ∧ e.trackId = tid)).length

/-- Track ids of `entered` events, in emission order: exactly the ids
allocated by `_assign_tracks`, in allocation order. -/
def enteredIds (evs : List PEvent) : List Nat :=
  (evs.filter (fun e => e.kind = "entered")).map (fun e => e.trackId)

/-- Keys of the active-track map. -/
def keys (s : TState) : List Nat := s.activeTracks.map (fun p => p.1)

/-- Occurrences of a key in an association list. -/
def cnt (l : List (Nat × Track)) (tid : Nat) : Nat :=
  (l.filter (fun p => p.1 = tid)).length

theorem countLeft_append (tid : Nat) (a b : List PEvent) :
    countLeft tid (a ++ b) = countLeft tid a + countLeft tid b := by
  unfold countLeft
  rw [List.filter_append, List.length_append]

theorem countLeft_eq_zero_of_ne (tid : Nat) {l : List PEvent}
    (h : ∀ e ∈ l, e.trackId ≠ tid) : countLeft tid l = 0 := by
  unfold countLeft
  rw [List.length_eq_zero]
  rw [List.filter_eq_nil]
  intro e he
  simp only [decide_eq_true_eq, not_and]
  intro _
  exact h e he

theorem countLeft_entered_zero (tid : Nat) {l : List PEvent}
    (h : ∀ e ∈ l, e.kind = "entered") : countLeft tid l = 0 := by
  unfold countLeft
  rw [List.length_eq_zero, List.filter_eq_nil]
  intro e he
  simp only [decide_eq_true_eq, not_and]
  intro hk
  rw [h e he] at hk
  simp at hk

theorem countLeft_leftmap (tid : Nat) (now : ℚ) (l : List (Nat × Track)) :
    countLeft tid (l.map (fun p => (⟨"left", p.1, now⟩ : PEvent))) = cnt l tid := by
  induction l with
  | nil => rfl
  | cons q l ih =>
    unfold countLeft cnt at ih ⊢
    simp only [List.map_cons, List.filter_cons]
    by_cases h : q.1 = tid <;> (simp [h] at ih ⊢) <;> omega

theorem cnt_partition (l : List (Nat × Track)) (pred : Nat × Track → Bool) (tid : Nat) :
    cnt (l.filter pred) tid + cnt (l.filter (fun p => !pred p)) tid = cnt l tid := by
  induction l with
  | nil => rfl
  | cons q l ih =>
    unfold cnt at ih ⊢
    cases hp : pred q <;> by_cases hq : q.1 = tid <;>
      simp [List.filter_cons, hp, hq, ← ih] <;> omega

theorem cnt_eq_count_keys (l : List (Nat × Track)) (tid : Nat) :
    cnt l tid = (l.map (fun p => p.1)).count tid := by
  induction l with
  | nil => rfl
  | cons q l ih =>
    unfold cnt at ih ⊢
    by_cases hq : q.1 = tid
    · simp [List.filter_cons, hq, ih, List.count_cons]
    · simp [List.filter_cons, hq, ih, List.count_cons]

theorem cnt_pos_of_mem {l : List (Nat × Track)} {tid : Nat} {t : Track}
    (h : (tid, t) ∈ l) : 1 ≤ cnt l tid := by
  unfold cnt
  have hmem : (tid, t) ∈ l.filter (fun p => p.1 = tid) :=
    List.mem_filter.2 ⟨h, by simp⟩
  exact List.length_pos.2 (List.ne_nil_of_mem hmem)

theorem enteredIds_append (a b : List PEvent) :
    enteredIds (a ++ b) = enteredIds a ++ enteredIds b := by
  unfold enteredIds
  rw [List.filter_append, List.map_append]

theorem enteredIds_all_entered {l : List PEvent}
    (h : ∀ e ∈ l, e.kind = "entered") :
    enteredIds l = l.map (fun e => e.trackId) := by
  unfold enteredIds
  congr 1
  apply List.filter_eq_self.2
  intro e he
  simp [h e he]

theorem enteredIds_leftmap (now : ℚ) (l : List (Nat × Track)) :
    enteredIds (l.map (fun p => (⟨"left", p.1, now⟩ : PEvent))) = [] := by
  unfold enteredIds
  rw [List.map_eq_nil]
  rw [List.filter_eq_nil]
  intro e he
  rcases List.mem_map.1 he with ⟨p, _, rfl⟩
  simp

theorem updTrack_keys (m : List (Nat × Track)) (tid : Nat) (box : Box) (now : ℚ) :
    (updTrack m tid box now).map (fun p => p.1) = m.map (fun p => p.1) := by
  unfold updTrack
  rw [List.map_map]
  apply List.map_congr_left
  intro p _
  by_cases h : p.1 = tid <;> simp [h]

/-- Structural facts about the per-detection loop: `next_track_id` is
monotone; the events appended are exactly the `entered` events of the
freshly created tracks, with strictly increasing ids all in
`[s.nextTrackId, result.nextTrackId)`; the key list of the map is the old
key list followed by the fresh ids; and every resulting entry is either an
untouched old entry or has `last_seen = now`. -/
theorem phase1_spec (items : List (Nat × Track)) (now : ℚ) :
    ∀ (dets : List Box) (used : List Nat) (s : TState),
      s.nextTrackId ≤ (phase1 items now dets used s).1.nextTrackId ∧
      ∃ evs : List PEvent,
        (phase1 items now dets used s).1.presenceEvents = s.presenceEvents ++ evs ∧
        (∀ e ∈ evs, e.kind = "entered" ∧ s.nextTrackId ≤ e.trackId ∧
          e.trackId < (phase1 items now dets used s).1.nextTrackId) ∧
        List.Pairwise (· < ·) (evs.map (fun e => e.trackId)) ∧
        (phase1 items now dets used s).1.activeTracks.map (fun p => p.1) =
          s.activeTracks.map (fun p => p.1) ++ evs.map (fun e => e.trackId) ∧
        (∀ q ∈ (phase1 items now dets used s).1.activeTracks,
          q ∈ s.activeTracks ∨ (q.2 : Track).lastSeen = now) := by
  intro dets
  induction dets with
  | nil =>
    intro used s
    refine ⟨le_rfl, [], by simp [phase1], by simp, by simp, by simp [phase1], ?_⟩
    intro q hq
    exact Or.inl (by simpa [phase1] using hq)
  | cons box rest ih =>
    intro used s
    cases hm : matchOne items used box with
    | some tid =>
      have hred : phase1 items now (box :: rest) used s =
          ((phase1 items now rest (tid :: used)
            { s with activeTracks := updTrack s.activeTracks tid box now }).1,
           tid :: (phase1 items now rest (tid :: used)
            { s with activeTracks := updTrack s.activeTracks tid box now }).2) := by
        simp only [phase1, hm]
      obtain ⟨h1, evs, hev, hprop, hpw, hkeys, hvals⟩ :=
        ih (tid :: used) { s with activeTracks := updTrack s.activeTracks tid box now }
      rw [hred]
      refine ⟨h1, evs, hev, hprop, hpw, ?_, ?_⟩
      · rw [hkeys]
        simp only
        rw [updTrack_keys]
      · intro q hq
        rcases hvals q hq with hin | hnow
        · simp only at hin
          rcases List.mem_map.1 hin with ⟨p, hp, hfp⟩
          by_cases hptid : p.1 = tid
          · right
            rw [← hfp]
            simp [hptid]
          · left
            rw [← hfp]
            simpa [hptid] using hp
        · exact Or.inr hnow
    | none =>
      have hred : phase1 items now (box :: rest) used s =
          ((phase1 items now rest (s.nextTrackId :: used)
            { nextTrackId := s.nextTrackId + 1,
              activeTracks := s.activeTracks ++ [(s.nextTrackId, newTrack box now)],
              presenceEvents := s.presenceEvents ++ [⟨"entered", s.nextTrackId, now⟩] }).1,
           s.nextTrackId :: (phase1 items now rest (s.nextTrackId :: used)
            { nextTrackId := s.nextTrackId + 1,
              activeTracks := s.activeTracks ++ [(s.nextTrackId, newTrack box now)],
              presenceEvents := s.presenceEvents ++ [⟨"entered", s.nextTrackId, now⟩] }).2) := by
        simp only [phase1, hm]
      obtain ⟨h1, evs, hev, hprop, hpw, hkeys, hvals⟩ :=
        ih (s.nextTrackId :: used)
          { nextTrackId := s.nextTrackId + 1,
            activeTracks := s.activeTracks ++ [(s.nextTrackId, newTrack box now)],
            presenceEvents := s.presenceEvents ++ [⟨"entered", s.nextTrackId, now⟩] }
      rw [hred]
      refine ⟨le_trans (Nat.le_succ _) h1,
        ⟨"entered", s.nextTrackId, now⟩ :: evs, ?_, ?_, ?_, ?_, ?_⟩
      · rw [hev]
        simp
      · intro e he
        rcases List.mem_cons.1 he with rfl | he'
        · exact ⟨rfl, le_rfl, lt_of_lt_of_le (Nat.lt_succ_self _) h1⟩
        · obtain ⟨hk, hge, hlt⟩ := hprop e he'
          exact ⟨hk, le_trans (Nat.le_succ _) hge, hlt⟩
      · rw [List.map_cons]
        rw [List.pairwise_cons]
        refine ⟨?_, hpw⟩
        intro b hb
        rcases List.mem_map.1 hb with ⟨e, he', rfl⟩
        exact lt_of_lt_of_le (Nat.lt_succ_self _) (hprop e he').2.1
      · rw [hkeys]
        simp
      · intro q hq
        rcases hvals q hq with hin | hnow
        · simp only at hin
          rcases List.mem_append.1 hin with hold | hnew
          · exact Or.inl hold
          · right
            have : q = (s.nextTrackId, newTrack box now) := by simpa using hnew
            rw [this]
            rfl
        · exact Or.inr hnow

/-- An old entry not matched by any detection of the frame is carried
through the per-detection loop unchanged. -/
theorem phase1_preserve_unmatched (items : List (Nat × Track)) (now : ℚ) :
    ∀ (dets : List Box) (used : List Nat) (s : TState) (tid : Nat) (t : Track),
      (tid, t) ∈ s.activeTracks →
      tid ∉ (phase1 items now dets used s).2 →
      (tid, t) ∈ (phase1 items now dets used s).1.activeTracks := by
  intro dets
  induction dets with
  | nil =>
    intro used s tid t hmem _
    simpa [phase1] using hmem
  | cons box rest ih =>
    intro used s tid t hmem hna
    cases hm : matchOne items used box with
    | some tid0 =>
      have hred : phase1 items now (box :: rest) used s =
          ((phase1 items now rest (tid0 :: used)
            { s with activeTracks := updTrack s.activeTracks tid0 box now }).1,
           tid0 :: (phase1 items now rest (tid0 :: used)
            { s with activeTracks := updTrack s.activeTracks tid0 box now }).2) := by
        simp only [phase1, hm]
      rw [hred] at hna ⊢
      simp only [List.mem_cons, not_or] at hna
      refine ih (tid0 :: used) _ tid t ?_ hna.2
      simp only
      unfold updTrack
      have : ((tid, t) : Nat × Track) =
          (fun p : Nat × Track =>
            if p.1 = tid0 then (p.1, { p.2 with bbox := box, lastSeen := now }) else p)
            (tid, t) := by
        simp [hna.1]
      rw [this]
      exact List.mem_map_of_mem _ hmem
    | none =>
      have hred : phase1 items now (box :: rest) used s =
          ((phase1 items now rest (s.nextTrackId :: used)
            { nextTrackId := s.nextTrackId + 1,
              activeTracks := s.activeTracks ++ [(s.nextTrackId, newTrack box now)],
              presenceEvents := s.presenceEvents ++ [⟨"entered", s.nextTrackId, now⟩] }).1,
           s.nextTrackId :: (phase1 items now rest (s.nextTrackId :: used)
            { nextTrackId := s.nextTrackId + 1,
              activeTracks := s.activeTracks ++ [(s.nextTrackId, newTrack box now)],
              presenceEvents := s.presenceEvents ++ [⟨"entered", s.nextTrackId, now⟩] }).2) := by
        simp only [phase1, hm]
      rw [hred] at hna ⊢
      simp only [List.mem_cons, not_or] at hna
      refine ih (s.nextTrackId :: used) _ tid t ?_ hna.2
      exact List.mem_append_left _ hmem

theorem cnt_pos_mem {l : List (Nat × Track)} {tid : Nat} (h : 1 ≤ cnt l tid) :
    ∃ t, (tid, t) ∈ l := by
  unfold cnt at h
  have hne : l.filter (fun p => p.1 = tid) ≠ [] := by
    intro hnil
    rw [hnil] at h
    simp at h
  rcases List.exists_mem_of_ne_nil _ hne with ⟨p, hp⟩
  rcases List.mem_filter.1 hp with ⟨hpl, hpt⟩
  simp only [decide_eq_true_eq] at hpt
  exact ⟨p.2, by rw [← hpt]; exact hpl⟩

/-- Invariant of the tracker state: unique keys, keys and event ids below
the id counter, no `left` event for a live track, at most one `left` event
per id ever, and strictly increasing allocation order of `entered` ids. -/
def TInv (s : TState) : Prop :=
  (keys s).Nodup ∧
  (∀ tid ∈ keys s, tid < s.nextTrackId) ∧
  (∀ e ∈ s.presenceEvents, e.trackId < s.nextTrackId) ∧
  (∀ tid ∈ keys s, countLeft tid s.presenceEvents = 0) ∧
  (∀ tid, countLeft tid s.presenceEvents ≤ 1) ∧
  List.Pairwise (· < ·) (enteredIds s.presenceEvents)

theorem TInv_init : TInv initTState := by
  refine ⟨?_, ?_, ?_, ?_, ?_, ?_⟩ <;>
    simp [keys, countLeft, enteredIds, initTState]

theorem TInv_assignTracks (now : ℚ) (dets : List Box) (s : TState) (h : TInv s) :
    TInv (assignTracks now dets s).1 := by
  obtain ⟨hnd, hklt, helt, hcl0, hcl1, hpwold⟩ := h
  obtain ⟨hmono, evs, hev, hprop, hpw, hkeyeq, hvals⟩ :=
    phase1_spec s.activeTracks now dets [] s
  have hnext : (assignTracks now dets s).1.nextTrackId =
      (phase1 s.activeTracks now dets [] s).1.nextTrackId := rfl
  have hevents : (assignTracks now dets s).1.presenceEvents =
      (phase1 s.activeTracks now dets [] s).1.presenceEvents ++
        ((phase1 s.activeTracks now dets [] s).1.activeTracks.filter
          (fun p => decide (trackTimeout < now - p.2.lastSeen))).map
          (fun p => (⟨"left", p.1, now⟩ : PEvent)) := rfl
  have hactive : (assignTracks now dets s).1.activeTracks =
      (phase1 s.activeTracks now dets [] s).1.activeTracks.filter
        (fun p => !decide (trackTimeout < now - p.2.lastSeen)) := rfl
  -- keys of the post-match state
  have hnd1 : ((phase1 s.activeTracks now dets [] s).1.activeTracks.map
      (fun p => p.1)).Nodup := by
    rw [hkeyeq]
    refine List.Nodup.append hnd ?_ ?_
    · exact (hpw.imp (fun hab => Nat.ne_of_lt hab))
    · intro a ha hb
      rcases List.mem_map.1 hb with ⟨e, he, rfl⟩
      exact Nat.lt_irrefl _ (lt_of_lt_of_le (hklt _ ha) (hprop e he).2.1)
  have hkeylt1 : ∀ tid ∈ (phase1 s.activeTracks now dets [] s).1.activeTracks.map
      (fun p => p.1), tid < (phase1 s.activeTracks now dets [] s).1.nextTrackId := by
    intro tid htid
    rw [hkeyeq] at htid
    rcases List.mem_append.1 htid with hs | hf
    · exact lt_of_lt_of_le (hklt _ hs) hmono
    · rcases List.mem_map.1 hf with ⟨e, he, rfl⟩
      exact (hprop e he).2.2
  have hcntle : ∀ tid, cnt (phase1 s.activeTracks now dets [] s).1.activeTracks tid ≤ 1 := by
    intro tid
    rw [cnt_eq_count_keys]
    exact List.nodup_iff_count_le_one.1 hnd1 tid
  have hpart : ∀ tid,
      cnt ((phase1 s.activeTracks now dets [] s).1.activeTracks.filter
        (fun p => decide (trackTimeout < now - p.2.lastSeen))) tid +
      cnt ((phase1 s.activeTracks now dets [] s).1.activeTracks.filter
        (fun p => !decide (trackTimeout < now - p.2.lastSeen))) tid =
      cnt (phase1 s.activeTracks now dets [] s).1.activeTracks tid := by
    intro tid
    exact cnt_partition _ (fun p => decide (trackTimeout < now - p.2.lastSeen)) tid
  -- the left-event count contributed by this frame's expiry, per id
  have hcl_new : ∀ tid, countLeft tid (assignTracks now dets s).1.presenceEvents =
      countLeft tid s.presenceEvents +
      cnt ((phase1 s.activeTracks now dets [] s).1.activeTracks.filter
        (fun p => decide (trackTimeout < now - p.2.lastSeen))) tid := by
    intro tid
    rw [hevents, hev, countLeft_append, countLeft_append, countLeft_leftmap,
      countLeft_entered_zero tid (fun e he => (hprop e he).1)]
    omega
  -- a stale entry is an old entry with an old key
  have hstale_old : ∀ tid t,
      (tid, t) ∈ (phase1 s.activeTracks now dets [] s).1.activeTracks.filter
        (fun p => decide (trackTimeout < now - p.2.lastSeen)) →
      (tid, t) ∈ s.activeTracks := by
    intro tid t hmem
    rcases List.mem_filter.1 hmem with ⟨hin, hpred⟩
    rcases hvals _ hin with hold | hnow
    · exact hold
    · exfalso
      simp only [decide_eq_true_eq] at hpred
      simp only at hnow
      rw [hnow] at hpred
      norm_num [trackTimeout] at hpred
  refine ⟨?_, ?_, ?_, ?_, ?_, ?_⟩
  · rw [keys, hactive]
    exact List.Nodup.sublist ((List.filter_sublist _).map _) hnd1
  · intro tid htid
    rw [keys, hactive] at htid
    rw [hnext]
    exact hkeylt1 tid (((List.filter_sublist _).map _).mem htid)
  · intro e he
    rw [hevents, hev] at he
    rw [hnext]
    rcases List.mem_append.1 he with hl | hr
    · rcases List.mem_append.1 hl with hold | hnew
      · exact lt_of_lt_of_le (helt e hold) hmono
      · exact (hprop e hnew).2.2
    · rcases List.mem_map.1 hr with ⟨p, hp, rfl⟩
      exact hkeylt1 _ (List.mem_map_of_mem _ (List.mem_of_mem_filter hp))
  · intro tid htid
    rw [keys, hactive] at htid
    rcases List.mem_map.1 htid with ⟨p, hp, rfl⟩
    have hkeep1 : 1 ≤ cnt ((phase1 s.activeTracks now dets [] s).1.activeTracks.filter
        (fun q => !decide (trackTimeout < now - q.2.lastSeen))) p.1 :=
      cnt_pos_of_mem (t := p.2) (by simpa using hp)
    have hstale0 : cnt ((phase1 s.activeTracks now dets [] s).1.activeTracks.filter
        (fun q => decide (trackTimeout < now - q.2.lastSeen))) p.1 = 0 := by
      have := hpart p.1
      have := hcntle p.1
      omega
    rw [hcl_new, hstale0]
    have hpin : p ∈ (phase1 s.activeTracks now dets [] s).1.activeTracks :=
      List.mem_of_mem_filter hp
    have hkey1 : p.1 ∈ (phase1 s.activeTracks now dets [] s).1.activeTracks.map
        (fun q => q.1) := List.mem_map_of_mem _ hpin
    rw [hkeyeq] at hkey1
    rcases List.mem_append.1 hkey1 with hs | hf
    · rw [hcl0 _ hs]
    · rcases List.mem_map.1 hf with ⟨e, he, heq⟩
      have : countLeft p.1 s.presenceEvents = 0 := by
        apply countLeft_eq_zero_of_ne
        intro e' he'
        have h1 := helt e' he'
        have h2 := (hprop e he).2.1
        omega
      rw [this]
  · intro tid
    rw [hcl_new]
    by_cases hz : cnt ((phase1 s.activeTracks now dets [] s).1.activeTracks.filter
        (fun q => decide (trackTimeout < now - q.2.lastSeen))) tid = 0
    · rw [hz]
      simpa using hcl1 tid
    · have h1 : 1 ≤ cnt ((phase1 s.activeTracks now dets [] s).1.activeTracks.filter
          (fun q => decide (trackTimeout < now - q.2.lastSeen))) tid := by omega
      rcases cnt_pos_mem h1 with ⟨t, hmem⟩
      have hold := hstale_old tid t hmem
      have : countLeft tid s.presenceEvents = 0 :=
        hcl0 tid (List.mem_map_of_mem _ hold)
      rw [this]
      have := hpart tid
      have := hcntle tid
      omega
  · rw [hevents, hev, enteredIds_append, enteredIds_append, enteredIds_leftmap,
      List.append_nil, enteredIds_all_entered (fun e he => (hprop e he).1)]
    rw [List.pairwise_append]
    refine ⟨hpwold, hpw, ?_⟩
    intro x hx y hy
    unfold enteredIds at hx
    rcases List.mem_map.1 hx with ⟨e, he, rfl⟩
    rcases List.mem_map.1 hy with ⟨e', he', rfl⟩
    exact lt_of_lt_of_le (helt e (List.mem_of_mem_filter he)) (hprop e' he').2.1

theorem TInv_run (frames : List (ℚ × List Box)) : TInv (runTracker frames) := by
  have : ∀ (fs : List (ℚ × List Box)) (s : TState), TInv s →
      TInv (fs.foldl (fun s f => (assignTracks f.1 f.2 s).1) s) := by
    intro fs
    induction fs with
    | nil => intro s hs; exact hs
    | cons f fs ih =>
      intro s hs
      exact ih _ (TInv_assignTracks f.1 f.2 s hs)
  exact this frames initTState TInv_init

theorem phase1_keys_nodup (now : ℚ) (dets : List Box) (s : TState) (h : TInv s) :
    ((phase1 s.activeTracks now dets [] s).1.activeTracks.map (fun p => p.1)).Nodup := by
  obtain ⟨hnd, hklt, _, _, _, _⟩ := h
  obtain ⟨_, evs, _, hprop, hpw, hkeyeq, _⟩ := phase1_spec s.activeTracks now dets [] s
  rw [hkeyeq]
  refine List.Nodup.append hnd (hpw.imp (fun hab => Nat.ne_of_lt hab)) ?_
  intro a ha hb
  rcases List.mem_map.1 hb with ⟨e, he, rfl⟩
  exact Nat.lt_irrefl _ (lt_of_lt_of_le (hklt _ ha) (hprop e he).2.1)

theorem phase1_cnt_le_one (now : ℚ) (dets : List Box) (s : TState) (h : TInv s)
    (tid : Nat) : cnt (phase1 s.activeTracks now dets [] s).1.activeTracks tid ≤ 1 := by
  rw [cnt_eq_count_keys]
  exact List.nodup_iff_count_le_one.1 (phase1_keys_nodup now dets s h) tid

theorem iouT_nonneg (a b : Box) : 0 ≤ iouT a b := by
  simp only [iouT]
  split
  · next h =>
    apply div_nonneg
    · exact_mod_cast mul_nonneg (le_max_left 0 _) (le_max_left 0 _)
    · exact_mod_cast le_of_lt h
  · exact le_rfl

theorem bestIoU_fold_cases (used : List Nat) (box : Box) :
    ∀ (l : List (Nat × Track)) (acc : Option Nat × ℚ),
      l.foldl (bestIoUStep used box) acc = acc ∨
      ∃ p ∈ l, p.1 ∉ used ∧
        l.foldl (bestIoUStep used box) acc = (some p.1, iouT box p.2.bbox) := by
  intro l
  induction l with
  | nil => intro acc; exact Or.inl rfl
  | cons q l ih =>
    intro acc
    simp only [List.foldl_cons]
    by_cases hq : q.1 ∈ used
    · have hstep : bestIoUStep used box acc q = acc := by
        unfold bestIoUStep
        rw [if_pos hq]
      rw [hstep]
      rcases ih acc with h | ⟨p, hp, hnu, heq⟩
      · exact Or.inl h
      · exact Or.inr ⟨p, List.mem_cons_of_mem q hp, hnu, heq⟩
    · by_cases hlt : acc.2 < iouT box q.2.bbox
      · have hstep : bestIoUStep used box acc q = (some q.1, iouT box q.2.bbox) := by
          unfold bestIoUStep
          rw [if_neg hq, if_pos hlt]
        rw [hstep]
        rcases ih (some q.1, iouT box q.2.bbox) with h | ⟨p, hp, hnu, heq⟩
        · exact Or.inr ⟨q, List.mem_cons_self q l, hq, h⟩
        · exact Or.inr ⟨p, List.mem_cons_of_mem q hp, hnu, heq⟩
      · have hstep : bestIoUStep used box acc q = acc := by
          unfold bestIoUStep
          rw [if_neg hq, if_neg hlt]
        rw [hstep]
        rcases ih acc with h | ⟨p, hp, hnu, heq⟩
        · exact Or.inl h
        · exact Or.inr ⟨p, List.mem_cons_of_mem q hp, hnu, heq⟩

theorem bestIoU_fold_mono (used : List Nat) (box : Box) :
    ∀ (l : List (Nat × Track)) (acc : Option Nat × ℚ),
      acc.2 ≤ (l.foldl (bestIoUStep used box) acc).2 := by
  intro l
  induction l with
  | nil => intro acc; exact le_rfl
  | cons q l ih =>
    intro acc
    simp only [List.foldl_cons]
    refine le_trans ?_ (ih (bestIoUStep used box acc q))
    unfold bestIoUStep
    by_cases hq : q.1 ∈ used
    · rw [if_pos hq]
    · rw [if_neg hq]
      by_cases hlt : acc.2 < iouT box q.2.bbox
      · rw [if_pos hlt]; exact le_of_lt hlt
      · rw [if_neg hlt]

theorem bestIoU_fold_ge (used : List Nat) (box : Box) :
    ∀ (l : List (Nat × Track)) (acc : Option Nat × ℚ) (p : Nat × Track),
      p ∈ l → p.1 ∉ used →
      iouT box p.2.bbox ≤ (l.foldl (bestIoUStep used box) acc).2 := by
  intro l
  induction l with
  | nil => intro acc p hp; exact absurd hp (List.not_mem_nil p)
  | cons q l ih =>
    intro acc p hp hnu
    simp only [List.foldl_cons]
    rcases List.mem_cons.1 hp with rfl | hp'
    · refine le_trans ?_ (bestIoU_fold_mono used box l (bestIoUStep used box acc p))
      unfold bestIoUStep
      rw [if_neg hnu]
      by_cases hlt : acc.2 < iouT box p.2.bbox
      · rw [if_pos hlt]
      · rw [if_neg hlt]; exact not_lt.1 hlt
    · exact ih (bestIoUStep used box acc q) p hp' hnu

theorem nearestCenter_fold_cases (used : List Nat) (box : Box) :
    ∀ (l : List (Nat × Track)) (acc : Option Nat × Int),
      l.foldl (nearestCenterStep used box) acc = acc ∨
      ∃ p ∈ l, p.1 ∉ used ∧
        l.foldl (nearestCenterStep used box) acc = (some p.1, sqCenterDist p.2.bbox box) := by
  intro l
  induction l with
  | nil => intro acc; exact Or.inl rfl
  | cons q l ih =>
    intro acc
    simp only [List.foldl_cons]
    by_cases hq : q.1 ∈ used
    · have hstep : nearestCenterStep used box acc q = acc := by
        unfold nearestCenterStep
        rw [if_pos hq]
      rw [hstep]
      rcases ih acc with h | ⟨p, hp, hnu, heq⟩
      · exact Or.inl h
      · exact Or.inr ⟨p, List.mem_cons_of_mem q hp, hnu, heq⟩
    · by_cases hlt : sqCenterDist q.2.bbox box < acc.2
      · have hstep : nearestCenterStep used box acc q =
            (some q.1, sqCenterDist q.2.bbox box) := by
          unfold nearestCenterStep
          rw [if_neg hq, if_pos hlt]
        rw [hstep]
        rcases ih (some q.1, sqCenterDist q.2.bbox box) with h | ⟨p, hp, hnu, heq⟩
        · exact Or.inr ⟨q, List.mem_cons_self q l, hq, h⟩
        · exact Or.inr ⟨p, List.mem_cons_of_mem q hp, hnu, heq⟩
      · have hstep : nearestCenterStep used box acc q = acc := by
          unfold nearestCenterStep
          rw [if_neg hq, if_neg hlt]
        rw [hstep]
        rcases ih acc with h | ⟨p, hp, hnu, heq⟩
        · exact Or.inl h
        · exact Or.inr ⟨p, List.mem_cons_of_mem q hp, hnu, heq⟩

/-- When some still-unclaimed snapshot track reaches the IoU acceptance
threshold, the detection is matched to an existing snapshot track. -/
theorem matchOne_existing (items : List (Nat × Track)) (used : List Nat) (box : Box)
    (h : ∃ p ∈ items, p.1 ∉ used ∧ iouThreshold ≤ iouT box p.2.bbox) :
    ∃ tid, matchOne items used box = some tid ∧ tid ∈ items.map (fun p => p.1) := by
  rcases h with ⟨p, hp, hnu, hge⟩
  have hge2 : iouThreshold ≤ (bestIoU items used box).2 :=
    le_trans hge (bestIoU_fold_ge used box items (none, -1) p hp hnu)
  have hcases := bestIoU_fold_cases used box items (none, -1)
  rcases hcases with hacc | ⟨p', hp', hnu', heq⟩
  · exfalso
    have : (bestIoU items used box).2 = -1 := by
      unfold bestIoU
      rw [hacc]
    rw [this] at hge2
    norm_num [iouThreshold] at hge2
  · have hbi : bestIoU items used box = (some p'.1, iouT box p'.2.bbox) := heq
    refine ⟨p'.1, ?_, List.mem_map_of_mem _ hp'⟩
    unfold matchOne
    rw [hbi]
    rw [if_pos ⟨by simp, by rw [hbi] at hge2; exact hge2⟩]

/-- When every snapshot track misses both the IoU threshold and the
centroid-distance threshold, the detection is matched to no track. -/
theorem matchOne_none (items : List (Nat × Track)) (used : List Nat) (box : Box)
    (h : ∀ p ∈ items, iouT box p.2.bbox < iouThreshold ∧
      distThreshold < sqCenterDist p.2.bbox box) :
    matchOne items used box = none := by
  have hbi : ¬ ((bestIoU items used box).1.isSome ∧
      iouThreshold ≤ (bestIoU items used box).2) := by
    rcases bestIoU_fold_cases used box items (none, -1) with hacc | ⟨p, hp, hnu, heq⟩
    · intro hc
      have h1 : (bestIoU items used box).1 = none := by
        unfold bestIoU
        rw [hacc]
      rw [h1] at hc
      simp at hc
    · intro hc
      have h2 : (bestIoU items used box).2 = iouT box p.2.bbox := by
        unfold bestIoU
        rw [heq]
      rw [h2] at hc
      exact absurd hc.2 (not_le.2 (h p hp).1)
  have hnc : ¬ ((nearestCenter items used box).1.isSome ∧
      (nearestCenter items used box).2 ≤ distThreshold) := by
    rcases nearestCenter_fold_cases used box items (none, 10 ^ 9) with hacc | ⟨p, hp, hnu, heq⟩
    · intro hc
      have h1 : (nearestCenter items used box).1 = none := by
        unfold nearestCenter
        rw [hacc]
      rw [h1] at hc
      simp at hc
    · intro hc
      have h2 : (nearestCenter items used box).2 = sqCenterDist p.2.bbox box := by
        unfold nearestCenter
        rw [heq]
      rw [h2] at hc
      exact absurd hc.2 (not_le.2 (h p hp).2)
  unfold matchOne
  rw [if_neg hbi, if_neg hnc]

end Tracker

/-- CLAIM C2: within a session run of `_assign_tracks`, a track that is
still stale at the expiry check (its `last_seen` is more than
`track_timeout` in the past and no detection of the frame matched it, which
would have refreshed `last_seen`) is removed from the active map and gets
exactly one `left` event among the events appended by that frame; and no
track id ever accumulates more than one `left` event over the whole
session. -/
theorem c2_left_exactly_once :
    (∀ (frames : List (ℚ × List Tracker.Box)) (now : ℚ) (dets : List Tracker.Box)
       (tid : Nat) (t : Tracker.Track),
      (tid, t) ∈ (Tracker.runTracker frames).activeTracks →
      Tracker.trackTimeout < now - t.lastSeen →
      tid ∉ (Tracker.assignTracks now dets (Tracker.runTracker frames)).2.1 →
      tid ∉ Tracker.keys (Tracker.assignTracks now dets (Tracker.runTracker frames)).1 ∧
      Tracker.countLeft tid
        (((Tracker.assignTracks now dets (Tracker.runTracker frames)).1.presenceEvents).drop
          (Tracker.runTracker frames).presenceEvents.length) = 1) ∧
    (∀ (frames : List (ℚ × List Tracker.Box)) (tid : Nat),
      Tracker.countLeft tid (Tracker.runTracker frames).presenceEvents ≤ 1) := by
  constructor
  · intro frames now dets tid t hmem hstale hna
    have hinv := Tracker.TInv_run frames
    obtain ⟨_, evs, hev, hprop, _, _, _⟩ :=
      Tracker.phase1_spec (Tracker.runTracker frames).activeTracks now dets []
        (Tracker.runTracker frames)
    have hassign : (Tracker.assignTracks now dets (Tracker.runTracker frames)).2.1 =
        (Tracker.phase1 (Tracker.runTracker frames).activeTracks now dets []
          (Tracker.runTracker frames)).2 := rfl
    rw [hassign] at hna
    have hpres : (tid, t) ∈ (Tracker.phase1 (Tracker.runTracker frames).activeTracks now
        dets [] (Tracker.runTracker frames)).1.activeTracks :=
      Tracker.phase1_preserve_unmatched _ now dets [] _ tid t hmem hna
    have hstalemem : (tid, t) ∈ (Tracker.phase1 (Tracker.runTracker frames).activeTracks
        now dets [] (Tracker.runTracker frames)).1.activeTracks.filter
          (fun p => decide (Tracker.trackTimeout < now - p.2.lastSeen)) :=
      List.mem_filter.2 ⟨hpres, by simpa using hstale⟩
    have hstale1 : 1 ≤ Tracker.cnt ((Tracker.phase1 (Tracker.runTracker frames).activeTracks
        now dets [] (Tracker.runTracker frames)).1.activeTracks.filter
          (fun p => decide (Tracker.trackTimeout < now - p.2.lastSeen))) tid :=
      Tracker.cnt_pos_of_mem hstalemem
    have hpart := Tracker.cnt_partition
      (Tracker.phase1 (Tracker.runTracker frames).activeTracks now dets []
        (Tracker.runTracker frames)).1.activeTracks
      (fun p => decide (Tracker.trackTimeout < now - p.2.lastSeen)) tid
    have hle1 := Tracker.phase1_cnt_le_one now dets (Tracker.runTracker frames) hinv tid
    have hkeep0 : Tracker.cnt ((Tracker.phase1 (Tracker.runTracker frames).activeTracks
        now dets [] (Tracker.runTracker frames)).1.activeTracks.filter
          (fun p => !decide (Tracker.trackTimeout < now - p.2.lastSeen))) tid = 0 := by
      omega
    have hstaleeq : Tracker.cnt ((Tracker.phase1 (Tracker.runTracker frames).activeTracks
        now dets [] (Tracker.runTracker frames)).1.activeTracks.filter
          (fun p => decide (Tracker.trackTimeout < now - p.2.lastSeen))) tid = 1 := by
      omega
    constructor
    · intro htid
      have hactive : (Tracker.assignTracks now dets (Tracker.runTracker frames)).1.activeTracks =
          (Tracker.phase1 (Tracker.runTracker frames).activeTracks now dets []
            (Tracker.runTracker frames)).1.activeTracks.filter
            (fun p => !decide (Tracker.trackTimeout < now - p.2.lastSeen)) := rfl
      rw [Tracker.keys, hactive] at htid
      rcases List.mem_map.1 htid with ⟨p, hp, hpeq⟩
      have hpp : ((tid, p.2) : Nat × Tracker.Track) = p := by
        rw [← hpeq]
      have : 1 ≤ Tracker.cnt ((Tracker.phase1 (Tracker.runTracker frames).activeTracks
          now dets [] (Tracker.runTracker frames)).1.activeTracks.filter
            (fun p => !decide (Tracker.trackTimeout < now - p.2.lastSeen))) tid :=
        Tracker.cnt_pos_of_mem (t := p.2) (by rw [hpp]; exact hp)
      omega
    · have hevents : (Tracker.assignTracks now dets
          (Tracker.runTracker frames)).1.presenceEvents =
          (Tracker.phase1 (Tracker.runTracker frames).activeTracks now dets []
            (Tracker.runTracker frames)).1.presenceEvents ++
          ((Tracker.phase1 (Tracker.runTracker frames).activeTracks now dets []
            (Tracker.runTracker frames)).1.activeTracks.filter
              (fun p => decide (Tracker.trackTimeout < now - p.2.lastSeen))).map
            (fun p => (⟨"left", p.1, now⟩ : Tracker.PEvent)) := rfl
      rw [hevents, hev, List.append_assoc, List.drop_left,
        Tracker.countLeft_append,
        Tracker.countLeft_entered_zero tid (fun e he => (hprop e he).1),
        Tracker.countLeft_leftmap, hstaleeq]
  · intro frames tid
    exact (Tracker.TInv_run frames).2.2.2.2.1 tid

/-- CLAIM C2 witness: a track created at time 0 and not matched at time 10
is removed with exactly one `left` event. -/
theorem c2_left_exactly_once_witness :
    (1 ∉ Tracker.keys
      (Tracker.assignTracks 10 [] (Tracker.runTracker [(0, [⟨0, 0, 10, 10⟩])])).1 ∧
     Tracker.countLeft 1
      (((Tracker.assignTracks 10 []
        (Tracker.runTracker [(0, [⟨0, 0, 10, 10⟩])])).1.presenceEvents).drop
        (Tracker.runTracker [(0, [⟨0, 0, 10, 10⟩])]).presenceEvents.length) = 1) ∧
    Tracker.countLeft 1 (Tracker.runTracker [(0, [⟨0, 0, 10, 10⟩])]).presenceEvents ≤ 1 :=
  ⟨c2_left_exactly_once.1 [(0, [⟨0, 0, 10, 10⟩])] 10 [] 1
      (Tracker.newTrack ⟨0, 0, 10, 10⟩ 0)
      (by norm_num [Tracker.runTracker, Tracker.assignTracks, Tracker.phase1,
        Tracker.matchOne, Tracker.bestIoU, Tracker.nearestCenter, Tracker.expire,
        Tracker.initTState, Tracker.trackTimeout, Tracker.newTrack])
      (by norm_num [Tracker.trackTimeout, Tracker.newTrack])
      (by norm_num [Tracker.runTracker, Tracker.assignTracks, Tracker.phase1,
        Tracker.matchOne, Tracker.bestIoU, Tracker.nearestCenter, Tracker.expire,
        Tracker.initTState, Tracker.trackTimeout, Tracker.newTrack]),
   c2_left_exactly_once.2 [(0, [⟨0, 0, 10, 10⟩])] 1⟩

/-- CLAIM C3: over any session run, the track ids allocated by
`_assign_tracks` (the ids of the `entered` events, in allocation order) are
strictly increasing, hence pairwise distinct — no id is ever reused, even
after its track is removed. -/
theorem c3_track_ids_never_reused (frames : List (ℚ × List Tracker.Box)) :
    List.Pairwise (· < ·)
      (Tracker.enteredIds (Tracker.runTracker frames).presenceEvents) ∧
    (Tracker.enteredIds (Tracker.runTracker frames).presenceEvents).Nodup := by
  have h := (Tracker.TInv_run frames).2.2.2.2.2
  exact ⟨h, h.imp (fun hab => Nat.ne_of_lt hab)⟩

/-- CLAIM C4 counterexample: one active track with box `[0,0,100,100]` and
two identical detections at that same box.  The second detection has IoU
1 ≥ 0.3 with the active track's last box, but the greedy matcher already
claimed that track for the first detection, so the second detection is
assigned the fresh id 2 — not an existing track's id — refuting the claim's
first half as stated. -/
theorem c4_track_continuity_counterexample :
    Tracker.iouThreshold ≤
      Tracker.iouT ⟨0, 0, 100, 100⟩ (Tracker.newTrack ⟨0, 0, 100, 100⟩ 0).bbox ∧
    (Tracker.assignTracks 1 [⟨0, 0, 100, 100⟩, ⟨0, 0, 100, 100⟩]
      ⟨2, [(1, Tracker.newTrack ⟨0, 0, 100, 100⟩ 0)], []⟩).2.1 = [1, 2] ∧
    (2 : Nat) ∉ ([(1, Tracker.newTrack ⟨0, 0, 100, 100⟩ 0)] :
      List (Nat × Tracker.Track)).map (fun p => p.1) := by
  refine ⟨?_, ?_, by simp⟩
  · norm_num [Tracker.iouT, Tracker.iouThreshold, Tracker.newTrack]
  · norm_num [Tracker.assignTracks, Tracker.phase1, Tracker.matchOne, Tracker.bestIoU,
      Tracker.bestIoUStep, Tracker.nearestCenter, Tracker.nearestCenterStep,
      Tracker.iouT, Tracker.updTrack, Tracker.newTrack, Tracker.expire,
      Tracker.trackTimeout, Tracker.iouThreshold, Tracker.distThreshold]

/-- CLAIM C4 (amended): in the per-detection loop, a detection whose box
reaches IoU ≥ 0.3 with some snapshot track NOT already claimed by an
earlier detection of the same frame is assigned an existing snapshot
track's id; and a detection whose IoU with every snapshot track is < 0.3
and whose squared centroid distance to every snapshot track exceeds 120²
is assigned the fresh id `next_track_id` — which was never used before —
and an `entered` event is appended for it. -/
theorem c4_track_continuity (items : List (Nat × Tracker.Track)) (used : List Nat)
    (box : Tracker.Box) (now : ℚ) (rest : List Tracker.Box) (s : Tracker.TState)
    (hk : ∀ tid ∈ items.map (fun p => p.1), tid < s.nextTrackId) :
    ((∃ p ∈ items, p.1 ∉ used ∧ Tracker.iouThreshold ≤ Tracker.iouT box p.2.bbox) →
      ∃ tid, Tracker.matchOne items used box = some tid ∧
        tid ∈ items.map (fun p => p.1) ∧
        (Tracker.phase1 items now (box :: rest) used s).2.head? = some tid) ∧
    ((∀ p ∈ items, Tracker.iouT box p.2.bbox < Tracker.iouThreshold ∧
        Tracker.distThreshold < Tracker.sqCenterDist p.2.bbox box) →
      (Tracker.phase1 items now (box :: rest) used s).2.head? = some s.nextTrackId ∧
      s.nextTrackId ∉ items.map (fun p => p.1) ∧
      (⟨"entered", s.nextTrackId, now⟩ : Tracker.PEvent) ∈
        (Tracker.phase1 items now (box :: rest) used s).1.presenceEvents) := by
  constructor
  · intro h
    rcases Tracker.matchOne_existing items used box h with ⟨tid, hm, hmem⟩
    refine ⟨tid, hm, hmem, ?_⟩
    simp only [Tracker.phase1, hm, List.head?_cons]
  · intro h
    have hm := Tracker.matchOne_none items used box h
    refine ⟨?_, ?_, ?_⟩
    · simp only [Tracker.phase1, hm, List.head?_cons]
    · intro hmem
      exact Nat.lt_irrefl _ (hk _ hmem)
    · obtain ⟨_, evs, hev, _, _, _, _⟩ := Tracker.phase1_spec items now rest
        (s.nextTrackId :: used)
        { nextTrackId := s.nextTrackId + 1,
          activeTracks := s.activeTracks ++ [(s.nextTrackId, Tracker.newTrack box now)],
          presenceEvents := s.presenceEvents ++ [⟨"entered", s.nextTrackId, now⟩] }
      simp only [Tracker.phase1, hm]
      rw [hev]
      refine List.mem_append_left _ ?_
      simp

/-- CLAIM C4 witness: the amended theorem instantiated twice — once for an
overlapping detection (IoU = 1 with unclaimed track 5), once for a far-away
detection (IoU = 0 and centroid distance far above 120px against the only
track). -/
theorem c4_track_continuity_witness :
    (∃ tid, Tracker.matchOne [(5, Tracker.newTrack ⟨0, 0, 10, 10⟩ 0)] []
        ⟨0, 0, 10, 10⟩ = some tid ∧
      tid ∈ ([(5, Tracker.newTrack ⟨0, 0, 10, 10⟩ 0)] :
        List (Nat × Tracker.Track)).map (fun p => p.1) ∧
      (Tracker.phase1 [(5, Tracker.newTrack ⟨0, 0, 10, 10⟩ 0)] 1 [⟨0, 0, 10, 10⟩] []
        ⟨7, [(5, Tracker.newTrack ⟨0, 0, 10, 10⟩ 0)], []⟩).2.head? = some tid) ∧
    ((Tracker.phase1 [(5, Tracker.newTrack ⟨0, 0, 10, 10⟩ 0)] 1
        [⟨1000, 1000, 1010, 1010⟩] []
        ⟨7, [(5, Tracker.newTrack ⟨0, 0, 10, 10⟩ 0)], []⟩).2.head? = some 7 ∧
      (7 : Nat) ∉ ([(5, Tracker.newTrack ⟨0, 0, 10, 10⟩ 0)] :
        List (Nat × Tracker.Track)).map (fun p => p.1) ∧
      (⟨"entered", 7, 1⟩ : Tracker.PEvent) ∈
        (Tracker.phase1 [(5, Tracker.newTrack ⟨0, 0, 10, 10⟩ 0)] 1
          [⟨1000, 1000, 1010, 1010⟩] []
          ⟨7, [(5, Tracker.newTrack ⟨0, 0, 10, 10⟩ 0)], []⟩).1.presenceEvents) :=
  ⟨(c4_track_continuity [(5, Tracker.newTrack ⟨0, 0, 10, 10⟩ 0)] [] ⟨0, 0, 10, 10⟩ 1
      [] ⟨7, [(5, Tracker.newTrack ⟨0, 0, 10, 10⟩ 0)], []⟩
      (by simp)).1
    ⟨(5, Tracker.newTrack ⟨0, 0, 10, 10⟩ 0), by simp, by simp,
      by norm_num [Tracker.iouT, Tracker.iouThreshold, Tracker.newTrack]⟩,
   (c4_track_continuity [(5, Tracker.newTrack ⟨0, 0, 10, 10⟩ 0)] []
      ⟨1000, 1000, 1010, 1010⟩ 1 [] ⟨7, [(5, Tracker.newTrack ⟨0, 0, 10, 10⟩ 0)], []⟩
      (by simp)).2
    (by
      intro p hp
      simp only [List.mem_singleton] at hp
      subst hp
      constructor
      · norm_num [Tracker.iouT, Tracker.iouThreshold, Tracker.newTrack]
      · norm_num [Tracker.sqCenterDist, Tracker.centerX, Tracker.centerY,
          Tracker.distThreshold, Tracker.newTrack, Int.fdiv])⟩

/-! ## Unknown-person escalator (claim C1)

Model of `_check_unknown_person_timeout` (1405-1419),
`_update_unknown_person_tracking` (1421-1486), `_log_unknown_person`
(949-1005) and the per-frame ordering of `process_frame_with_analysis`:
first `_assign_tracks` (whose expiry also deletes the escalator state of
removed tracks, 1629-1640), then `_check_unknown_person_timeout`, then
`_update_unknown_person_tracking` on the freshly built detection records.
The search queue is unbounded, so `put(..., block=False)` never raises;
`_log_unknown_person` only enqueues when a face region is stored for the
track, but `logged_unknown_tracks.add(track_id)` happens unconditionally
after it. -/

namespace Esc

/-- The fields of a `detections_data` record that the escalator reads:
`track_id`, the `recognized` flag, whether `name` is non-null, the
`is_analyzing` flag, and whether a valid non-empty face region can be
cropped from the bbox. -/
structure DetRecord where
  trackId : Nat
  recognized : Bool
  hasName : Bool
  isAnalyzing : Bool
  hasRegion : Bool
deriving DecidableEq, Repr

/-- Embedding of `is_recognized = (detection.get('recognized', False) and
detection.get('name') is not None and not detection.get('is_analyzing',
False))`. -/
def isRecognizedRec (d : DetRecord) : Bool :=
  d.recognized && d.hasName && !d.isAnalyzing

/-- The escalator state: `unknown_tracks` (track id ↦ first-unknown time),
the `logged_unknown_tracks` dedupe set, the `face_regions` keys, and the
accumulated search-queue submissions in order. -/
structure EscState where
  unknownTracks : List (Nat × ℚ)
  loggedUnknown : List Nat
  faceRegions : List Nat
  searchJobs : List Nat
deriving DecidableEq, Repr

/-- Initial escalator state from `__init__`. -/
def initEscState : EscState := ⟨[], [], [], []⟩

/-- Timeout `self.unknown_person_timeout = 5.0`. -/
def unknownPersonTimeout : ℚ := 5

/-- The cleanup performed by `_assign_tracks` for each removed track id:
delete from `unknown_tracks`, `logged_unknown_tracks` and `face_regions`. -/
def trackerCleanup (removed : List Nat) (s : EscState) : EscState :=
  { unknownTracks := s.unknownTracks.filter (fun p => decide (p.1 ∉ removed)),
    loggedUnknown := s.loggedUnknown.filter (fun t => decide (t ∉ removed)),
    faceRegions := s.faceRegions.filter (fun t => decide (t ∉ removed)),
    searchJobs := s.searchJobs }

/-- One iteration of `_check_unknown_person_timeout`: when the track has
been unknown for at least the timeout and is not yet logged,
`_log_unknown_person` runs (it submits a SearchJob only when a face region
is stored) and the id is added to `logged_unknown_tracks`. -/
def checkTimeoutStep (now : ℚ) (st : EscState) (p : Nat × ℚ) : EscState :=
  if unknownPersonTimeout ≤ now - p.2 ∧ p.1 ∉ st.loggedUnknown then
    { st with
        searchJobs := st.searchJobs ++ (if p.1 ∈ st.faceRegions then [p.1] else []),
        loggedUnknown := st.loggedUnknown ++ [p.1] }
  else st

/-- Embedding of `_check_unknown_person_timeout`: iterate over the
`unknown_tracks` snapshot in insertion order. -/
def checkUnknownPersonTimeout (now : ℚ) (s : EscState) : EscState :=
  s.unknownTracks.foldl (checkTimeoutStep now) s

/-- One iteration of the per-detection loop of
`_update_unknown_person_tracking`: a recognized track is cleared from all
unknown-tracking state; an unknown track gets a first-unknown stamp if
absent and its face region stored when croppable. -/
def updateDetStep (now : ℚ) (st : EscState) (d : DetRecord) : EscState :=
  if isRecognizedRec d then
    { st with
        unknownTracks := st.unknownTracks.filter (fun p => decide (p.1 ≠ d.trackId)),
        loggedUnknown := st.loggedUnknown.filter (fun t => decide (t ≠ d.trackId)),
        faceRegions := st.faceRegions.filter (fun t => decide (t ≠ d.trackId)) }
  else
    let st1 :=
      if d.trackId ∈ st.unknownTracks.map (fun p => p.1) then st
      else { st with unknownTracks := st.unknownTracks ++ [(d.trackId, now)] }
    if d.hasRegion ∧ d.trackId ∉ st1.faceRegions then
      { st1 with faceRegions := st1.faceRegions ++ [d.trackId] }
    else st1

/-- The trailing cleanup of `_update_unknown_person_tracking`: every id in
`unknown_tracks` that is not among the current detections is removed from
all three maps. -/
def cleanupUndetected (current : List Nat) (s : EscState) : EscState :=
  let toRemove := (s.unknownTracks.map (fun p => p.1)).filter (fun t => decide (t ∉ current))
  { unknownTracks := s.unknownTracks.filter (fun p => decide (p.1 ∈ current)),
    loggedUnknown := s.loggedUnknown.filter (fun t => decide (t ∉ toRemove)),
    faceRegions := s.faceRegions.filter (fun t => decide (t ∉ toRemove)),
    searchJobs := s.searchJobs }

/-- Embedding of `_update_unknown_person_tracking`. -/
def updateUnknownPersonTracking (now : ℚ) (dets : List DetRecord) (s : EscState) :
    EscState :=
  cleanupUndetected (dets.map (fun d => d.trackId)) (dets.foldl (updateDetStep now) s)

/-- One frame of escalator processing in the order of
`process_frame_with_analysis`: tracker-expiry cleanup, then the timeout
check, then the detection-driven update.  A frame is
`(current_time, detection records, track ids removed by _assign_tracks)`. -/
def escFrame (s : EscState) (f : ℚ × List DetRecord × List Nat) : EscState :=
  updateUnknownPersonTracking f.1 f.2.1
    (checkUnknownPersonTimeout f.1 (trackerCleanup f.2.2 s))

/-- A run of frames from the initial state. -/
def runEsc (frames : List (ℚ × List DetRecord × List Nat)) : EscState :=
  frames.foldl escFrame initEscState

/-- The claim's hypothesis about one frame: the track is among the frame's
detections, every record of it is unrecognized, and the tracker did not
remove it (it cannot, since a matched detection refreshes `last_seen`). -/
def continuouslyUnknown (tid : Nat) (f : ℚ × List DetRecord × List Nat) : Prop :=
  (∃ d ∈ f.2.1, d.trackId = tid) ∧
  (∀ d ∈ f.2.1, d.trackId = tid → isRecognizedRec d = false) ∧
  tid ∉ f.2.2

/-- The one-shot invariant for a fixed track id: at most one submitted
SearchJob, and none at all while the id is not in the dedupe set. -/
def EscInv (tid : Nat) (s : EscState) : Prop :=
  s.searchJobs.count tid ≤ 1 ∧ (tid ∉ s.loggedUnknown → s.searchJobs.count tid = 0)

theorem EscInv_init (tid : Nat) : EscInv tid initEscState := by
  constructor <;> simp [initEscState]

theorem EscInv_trackerCleanup {tid : Nat} {s : EscState} (removed : List Nat)
    (hnr : tid ∉ removed) (h : EscInv tid s) : EscInv tid (trackerCleanup removed s) := by
  obtain ⟨h1, h2⟩ := h
  refine ⟨h1, ?_⟩
  intro hnl
  apply h2
  intro hl
  apply hnl
  unfold trackerCleanup
  simp only [List.mem_filter, decide_eq_true_eq]
  exact ⟨hl, hnr⟩

theorem EscInv_checkTimeout {tid : Nat} (now : ℚ) :
    ∀ (l : List (Nat × ℚ)) (st : EscState), EscInv tid st →
      EscInv tid (l.foldl (checkTimeoutStep now) st) := by
  intro l
  induction l with
  | nil => intro st h; exact h
  | cons p l ih =>
    intro st h
    simp only [List.foldl_cons]
    refine ih _ ?_
    obtain ⟨h1, h2⟩ := h
    unfold checkTimeoutStep
    by_cases hc : unknownPersonTimeout ≤ now - p.2 ∧ p.1 ∉ st.loggedUnknown
    · rw [if_pos hc]
      by_cases hp : p.1 = tid
      · subst hp
        have h0 : st.searchJobs.count p.1 = 0 := h2 hc.2
        constructor
        · simp only [List.count_append, h0]
          by_cases hr : p.1 ∈ st.faceRegions <;> simp [hr]
        · intro hnl
          exfalso
          apply hnl
          simp
      · have hz : List.count tid (if p.1 ∈ st.faceRegions then [p.1] else []) = 0 := by
          by_cases hr : p.1 ∈ st.faceRegions
          · rw [if_pos hr, List.count_eq_zero]
            simp only [List.mem_singleton]
            exact fun hh => hp hh.symm
          · rw [if_neg hr]
            rfl
        constructor
        · simp only [List.count_append, hz]
          omega
        · intro hnl
          have hnl' : tid ∉ st.loggedUnknown := by
            intro hl
            exact hnl (by simp [hl])
          have h0 := h2 hnl'
          simp only [List.count_append, h0, hz]
    · rw [if_neg hc]
      exact ⟨h1, h2⟩

theorem EscInv_updateDet {tid : Nat} (now : ℚ) :
    ∀ (dets : List DetRecord) (st : EscState),
      (∀ d ∈ dets, d.trackId = tid → isRecognizedRec d = false) →
      EscInv tid st → EscInv tid (dets.foldl (updateDetStep now) st) := by
  intro dets
  induction dets with
  | nil => intro st _ h; exact h
  | cons d ds ih =>
    intro st hgood h
    simp only [List.foldl_cons]
    refine ih _ (fun d' hd' => hgood d' (List.mem_cons_of_mem d hd')) ?_
    obtain ⟨h1, h2⟩ := h
    unfold updateDetStep
    by_cases hr : isRecognizedRec d = true
    · rw [if_pos hr]
      have hne : d.trackId ≠ tid := by
        intro heq
        have := hgood d (List.mem_cons_self d ds) heq
        rw [hr] at this
        exact Bool.true_eq_false.mp this
      refine ⟨h1, ?_⟩
      intro hnl
      apply h2
      intro hl
      apply hnl
      simp only [List.mem_filter, decide_eq_true_eq]
      exact ⟨hl, fun heq => hne heq.symm⟩
    · rw [if_neg hr]
      by_cases hu : d.trackId ∈ st.unknownTracks.map (fun p => p.1) <;>
        by_cases hreg : d.hasRegion = true ∧ d.trackId ∉ st.faceRegions <;>
        simp only [hu, hreg, if_true, if_false, ite_true, ite_false] <;>
        exact ⟨h1, h2⟩

theorem EscInv_cleanup {tid : Nat} {s : EscState} (current : List Nat)
    (hcur : tid ∈ current) (h : EscInv tid s) : EscInv tid (cleanupUndetected current s) := by
  obtain ⟨h1, h2⟩ := h
  refine ⟨h1, ?_⟩
  intro hnl
  apply h2
  intro hl
  apply hnl
  unfold cleanupUndetected
  simp only [List.mem_filter, decide_eq_true_eq]
  refine ⟨hl, ?_⟩
  intro hmem
  exact hmem.2 hcur

theorem EscInv_frame {tid : Nat} {s : EscState} (f : ℚ × List DetRecord × List Nat)
    (hgood : continuouslyUnknown tid f) (h : EscInv tid s) : EscInv tid (escFrame s f) := by
  obtain ⟨⟨d0, hd0, hd0t⟩, hunrec, hnr⟩ := hgood
  unfold escFrame updateUnknownPersonTracking
  refine EscInv_cleanup _ ?_ ?_
  · rw [← hd0t]
    exact List.mem_map_of_mem _ hd0
  · refine EscInv_updateDet _ _ _ hunrec ?_
    unfold checkUnknownPersonTimeout
    exact EscInv_checkTimeout _ _ _ (EscInv_trackerCleanup _ hnr ⟨h.1, h.2⟩)

end Esc

/-- CLAIM C1: for any run in which a given track id stays continuously
detected and unrecognized (and hence is never expired by the tracker), at
most one SearchJob for that track id is ever submitted to the search queue,
no matter how many frames are processed. -/
theorem c1_escalation_at_most_once (frames : List (ℚ × List Esc.DetRecord × List Nat))
    (tid : Nat) (hgood : ∀ f ∈ frames, Esc.continuouslyUnknown tid f) :
    (Esc.runEsc frames).searchJobs.count tid ≤ 1 := by
  have hrun : ∀ (fs : List (ℚ × List Esc.DetRecord × List Nat)) (s : Esc.EscState),
      (∀ f ∈ fs, Esc.continuouslyUnknown tid f) → Esc.EscInv tid s →
      Esc.EscInv tid (fs.foldl Esc.escFrame s) := by
    intro fs
    induction fs with
    | nil => intro s _ h; exact h
    | cons f fs ih =>
      intro s hg h
      simp only [List.foldl_cons]
      exact ih _ (fun f' hf' => hg f' (List.mem_cons_of_mem f hf'))
        (Esc.EscInv_frame f (hg f (List.mem_cons_self f fs)) h)
  exact (hrun frames Esc.initEscState hgood (Esc.EscInv_init tid)).1

/-- CLAIM C1 witness: a track that stays unknown with a stored face region
through frames at times 0, 6 and 12 (well past the 5s timeout) has at most
one submitted SearchJob. -/
theorem c1_escalation_at_most_once_witness :
    (Esc.runEsc [(0, [⟨1, false, false, false, true⟩], []),
                 (6, [⟨1, false, false, false, true⟩], []),
                 (12, [⟨1, false, false, false, true⟩], [])]).searchJobs.count 1 ≤ 1 :=
  c1_escalation_at_most_once
    [(0, [⟨1, false, false, false, true⟩], []),
     (6, [⟨1, false, false, false, true⟩], []),
     (12, [⟨1, false, false, false, true⟩], [])] 1
    (by
      intro f hf
      simp only [List.mem_cons, List.not_mem_nil, or_false] at hf
      rcases hf with rfl | rfl | rfl <;>
        exact ⟨⟨⟨1, false, false, false, true⟩, by simp, rfl⟩,
          by intro d hd _; simp only [List.mem_singleton] at hd; subst hd; rfl,
          by simp⟩)

/-! ## Detection deduplicator (claim C5)

Model of `detect_faces` orchestration (recognition.py 120-148):
`_remove_duplicate_faces` / `_nms` (168-249) followed by
`_deduplicate_by_embedding` (251-310), both sharing `_calculate_iou`
(312-337).  `scores.argsort()[::-1]` is modelled as a stable ascending sort
followed by reversal (numpy's small-array insertion sort is stable), so
equal scores end up in reversed input order.  The float comparison
`sim >= sim_threshold` on the normalized-embedding dot product is decided
exactly over ℚ by `embSimGE` (square-root-free; `embSimGE_decides` below
proves it equivalent to the real-number comparison). -/

namespace Dedup

/-- A float box `[x1, y1, x2, y2]` as used by the detector. -/
structure QBox where
  x1 : ℚ
  y1 : ℚ
  x2 : ℚ
  y2 : ℚ
deriving DecidableEq, Repr

/-- A detection: bbox, `det_score` confidence and embedding. -/
structure Face where
  box : QBox
  score : ℚ
  emb : List ℚ
deriving DecidableEq, Repr

/-- Embedding of `_calculate_iou` (recognition.py 312-337): clamped
intersection, UNclamped areas, and `intersection / max(union, 1e-8)`. -/
def iouE (a b : QBox) : ℚ :=
  let inter := max 0 (min a.x2 b.x2 - max a.x1 b.x1) *
               max 0 (min a.y2 b.y2 - max a.y1 b.y1)
  let area1 := (a.x2 - a.x1) * (a.y2 - a.y1)
  let area2 := (b.x2 - b.x1) * (b.y2 - b.y1)
  inter / max (area1 + area2 - inter) (1 / 100000000)

/-- Embedding of `scores.argsort()[::-1]` applied to the face list: stable
ascending sort by `det_score`, then reversal. -/
def sortDescArg (l : List Face) : List Face :=
  (l.insertionSort (fun a b => a.score ≤ b.score)).reverse

/-- The suppression loop of `_nms` on the score-sorted list: keep the head,
drop the remaining detections whose IoU with it exceeds the threshold
(`order = order[1:][ious <= iou_threshold]` keeps the rest), repeat. -/
def nmsRun (thr : ℚ) : List Face → List Face
  | [] => []
  | f :: rest =>
    f :: nmsRun thr (rest.filter (fun g => decide (iouE f.box g.box ≤ thr)))
termination_by l => l.length
decreasing_by
  simp only [List.length_cons]
  exact Nat.lt_succ_of_le (List.length_filter_le _ _)

/-- Embedding of `_nms`: sort descending by score, then suppress. -/
def nms (thr : ℚ) (l : List Face) : List Face := nmsRun thr (sortDescArg l)

/-- Embedding of `_remove_duplicate_faces`: pass lists of length ≤ 1
through unchanged, otherwise run NMS. -/
def removeDuplicateFaces (thr : ℚ) (l : List Face) : List Face :=
  if l.length ≤ 1 then l else nms thr l

/-- Sum of squares over ℚ. -/
def sumSqQ (e : List ℚ) : ℚ := (e.map (fun x => x * x)).sum

/-- Dot product over ℚ. -/
def dotQ (a b : List ℚ) : ℚ := (List.zipWith (fun x y => x * y) a b).sum

/-- Exact decision of the source's `sim >= c` where `sim` is the dot
product of the L2-normalized embeddings (`np.dot(emb1/|emb1|, emb2/|emb2|)`)
and `c > 0`: equivalently `0 < dot` and `c² · |e1|²·|e2|² ≤ dot²`, which
avoids square roots and stays in ℚ.  A zero-norm embedding is stored as
`None` in the source and never merges (`sim` stays `0.0 < c`). -/
def embSimGE (e1 e2 : List ℚ) (c : ℚ) : Bool :=
  if sumSqQ e1 = 0 ∨ sumSqQ e2 = 0 then false
  else decide (0 < dotQ e1 e2 ∧ c ^ 2 * (sumSqQ e1 * sumSqQ e2) ≤ (dotQ e1 e2) ^ 2)

/-- Indexing with the out-of-range default (all indices used are in
range). -/
def faceAt (l : List Face) (i : Nat) : Face := l.getD i ⟨⟨0, 0, 0, 0⟩, 0, []⟩

/-- The merge test of `_deduplicate_by_embedding` on two faces:
`(iou >= iou_threshold) or (sim >= sim_threshold)`. -/
def mergeFaceCond (simThr iouThr : ℚ) (a b : Face) : Bool :=
  decide (iouThr ≤ iouE a.box b.box) || embSimGE a.emb b.emb simThr

/-- The merge test applied at a pair of indices. -/
def mergeCond (simThr iouThr : ℚ) (l : List Face) (i j : Nat) : Bool :=
  mergeFaceCond simThr iouThr (faceAt l i) (faceAt l j)

/-- Python's `range(i+1, len(faces))`. -/
def jRange (l : List Face) (i : Nat) : List Nat :=
  List.range' (i + 1) (l.length - (i + 1))

/-- The inner loop of `_deduplicate_by_embedding`: scan `j` over
`range(i+1, n)`, skip already-removed `j`, and on a merge drop the
lower-score side — removing `j` and continuing when `scores[i] >=
scores[j]`, else removing `i` and breaking. -/
def innerScan (simThr iouThr : ℚ) (l : List Face) (i : Nat) :
    List Nat → List Nat → List Nat
  | [], removed => removed
  | j :: js, removed =>
    if j ∈ removed then innerScan simThr iouThr l i js removed
    else if mergeCond simThr iouThr l i j then
      if (faceAt l j).score ≤ (faceAt l i).score then
        innerScan simThr iouThr l i js (j :: removed)
      else i :: removed
    else innerScan simThr iouThr l i js removed

/-- The outer loop of `_deduplicate_by_embedding`: skip removed `i`, run
the inner scan, and append `i` to `keep` when it survived its own scan.
Returns `(keep, removed)`. -/
def outerScan (simThr iouThr : ℚ) (l : List Face) :
    List Nat → List Nat → List Nat × List Nat
  | [], removed => ([], removed)
  | i :: is, removed =>
    if i ∈ removed then outerScan simThr iouThr l is removed
    else
      let removed' := innerScan simThr iouThr l i (jRange l i) removed
      if i ∈ removed' then outerScan simThr iouThr l is removed'
      else
        let r := outerScan simThr iouThr l is removed'
        (i :: r.1, r.2)

/-- Embedding of `_deduplicate_by_embedding`: lists of length ≤ 1 pass
through; otherwise return `[faces[k] for k in keep]`. -/
def dedupByEmbedding (simThr iouThr : ℚ) (l : List Face) : List Face :=
  if l.length ≤ 1 then l
  else ((outerScan simThr iouThr l (List.range l.length) []).1).map (faceAt l)

/-- The deduplication pass of `detect_faces`: NMS at IoU 0.1 when more
than one face, then the embedding/IoU merge at thresholds 0.95 / 0.3 when
still more than one face. -/
def detectFacesDedup (l : List Face) : List Face :=
  let l1 := if 1 < l.length then removeDuplicateFaces (1/10) l else l
  if 1 < l1.length then dedupByEmbedding (19/20) (3/10) l1 else l1

/-- Componentwise cast of a rational vector to the reals. -/
def castList (e : List ℚ) : List ℝ := e.map (fun x => Rat.cast x)

theorem castList_cons (x : ℚ) (xs : List ℚ) :
    castList (x :: xs) = (x : ℝ) :: castList xs := rfl

theorem sumSqQ_nonneg (e : List ℚ) : 0 ≤ sumSqQ e := by
  refine List.sum_nonneg ?_
  intro x hx
  rcases List.mem_map.1 hx with ⟨y, _, rfl⟩
  exact mul_self_nonneg y

theorem sumSqQ_cast (e : List ℚ) :
    ((sumSqQ e : ℚ) : ℝ) = Sim.sumSq (castList e) := by
  induction e with
  | nil => simp [sumSqQ, Sim.sumSq, castList]
  | cons x xs ih =>
    rw [castList_cons]
    simp only [sumSqQ, Sim.sumSq, List.map_cons, List.sum_cons] at ih ⊢
    rw [Rat.cast_add, Rat.cast_mul, ih]

theorem dotQ_cast (a : List ℚ) :
    ∀ b : List ℚ, ((dotQ a b : ℚ) : ℝ) =
      Sim.dotList (castList a) (castList b) := by
  induction a with
  | nil => intro b; simp [dotQ, Sim.dotList, castList]
  | cons x xs ih =>
    intro b
    cases b with
    | nil => simp [dotQ, Sim.dotList, castList]
    | cons y ys =>
      rw [castList_cons, castList_cons]
      simp only [dotQ, Sim.dotList, List.zipWith_cons_cons, List.sum_cons] at ih ⊢
      rw [Rat.cast_add, Rat.cast_mul, ih ys]

/-- The square-root-free test `embSimGE` decides exactly the source's
comparison `sim >= c`, where `sim` is the real dot product of the two
L2-normalized embeddings, whenever both norms are non-zero and `c > 0`. -/
theorem embSimGE_decides (e1 e2 : List ℚ) (c : ℚ) (hc : 0 < c)
    (h1 : sumSqQ e1 ≠ 0) (h2 : sumSqQ e2 ≠ 0) :
    (embSimGE e1 e2 c = true ↔
      (c : ℝ) ≤ Sim.dotList (castList e1) (castList e2) /
        (Sim.norm2 (castList e1) * Sim.norm2 (castList e2))) := by
  have hs1 : (0 : ℚ) < sumSqQ e1 := lt_of_le_of_ne (sumSqQ_nonneg e1) (Ne.symm h1)
  have hs2 : (0 : ℚ) < sumSqQ e2 := lt_of_le_of_ne (sumSqQ_nonneg e2) (Ne.symm h2)
  have hS1 : Sim.sumSq (castList e1) = ((sumSqQ e1 : ℚ) : ℝ) :=
    (sumSqQ_cast e1).symm
  have hS2 : Sim.sumSq (castList e2) = ((sumSqQ e2 : ℚ) : ℝ) :=
    (sumSqQ_cast e2).symm
  have hS1pos : (0 : ℝ) < Sim.sumSq (castList e1) := by
    rw [hS1]; exact_mod_cast hs1
  have hS2pos : (0 : ℝ) < Sim.sumSq (castList e2) := by
    rw [hS2]; exact_mod_cast hs2
  have ht1 : (0 : ℝ) < Sim.norm2 (castList e1) :=
    Real.sqrt_pos.2 hS1pos
  have ht2 : (0 : ℝ) < Sim.norm2 (castList e2) :=
    Real.sqrt_pos.2 hS2pos
  have htsq : (Sim.norm2 (castList e1) *
      Sim.norm2 (castList e2)) ^ 2 =
      Sim.sumSq (castList e1) * Sim.sumSq (castList e2) := by
    rw [mul_pow]
    unfold Sim.norm2
    rw [Real.sq_sqrt (le_of_lt hS1pos), Real.sq_sqrt (le_of_lt hS2pos)]
  have hD : Sim.dotList (castList e1) (castList e2) =
      ((dotQ e1 e2 : ℚ) : ℝ) := (dotQ_cast e1 e2).symm
  have hemb : embSimGE e1 e2 c =
      decide (0 < dotQ e1 e2 ∧ c ^ 2 * (sumSqQ e1 * sumSqQ e2) ≤ (dotQ e1 e2) ^ 2) := by
    unfold embSimGE
    rw [if_neg (by push_neg; exact ⟨h1, h2⟩)]
  rw [hemb, decide_eq_true_iff]
  rw [le_div_iff (mul_pos ht1 ht2), hD]
  constructor
  · rintro ⟨hd, hsq⟩
    have hdR : (0 : ℝ) < ((dotQ e1 e2 : ℚ) : ℝ) := by exact_mod_cast hd
    have hsqR : ((c : ℝ) * (Sim.norm2 (castList e1) *
        Sim.norm2 (castList e2))) ^ 2 ≤ ((dotQ e1 e2 : ℚ) : ℝ) ^ 2 := by
      rw [mul_pow, htsq, hS1, hS2]
      exact_mod_cast hsq
    have hcn : (0 : ℝ) ≤ (c : ℝ) * (Sim.norm2 (castList e1) *
        Sim.norm2 (castList e2)) :=
      mul_nonneg (by exact_mod_cast le_of_lt hc) (le_of_lt (mul_pos ht1 ht2))
    calc (c : ℝ) * (Sim.norm2 (castList e1) *
          Sim.norm2 (castList e2))
        = Real.sqrt (((c : ℝ) * (Sim.norm2 (castList e1) *
            Sim.norm2 (castList e2))) ^ 2) := (Real.sqrt_sq hcn).symm
      _ ≤ Real.sqrt (((dotQ e1 e2 : ℚ) : ℝ) ^ 2) := Real.sqrt_le_sqrt hsqR
      _ = ((dotQ e1 e2 : ℚ) : ℝ) := Real.sqrt_sq (le_of_lt hdR)
  · intro h
    have hcn : (0 : ℝ) < (c : ℝ) * (Sim.norm2 (castList e1) *
        Sim.norm2 (castList e2)) :=
      mul_pos (by exact_mod_cast hc) (mul_pos ht1 ht2)
    have hdR : (0 : ℝ) < ((dotQ e1 e2 : ℚ) : ℝ) := lt_of_lt_of_le hcn h
    refine ⟨by exact_mod_cast hdR, ?_⟩
    have hsqR : ((c : ℝ) * (Sim.norm2 (castList e1) *
        Sim.norm2 (castList e2))) ^ 2 ≤ ((dotQ e1 e2 : ℚ) : ℝ) ^ 2 :=
      pow_le_pow_left (le_of_lt hcn) h 2
    rw [mul_pow, htsq, hS1, hS2] at hsqR
    exact_mod_cast hsqR

theorem sortDescArg_perm (l : List Face) : List.Perm (sortDescArg l) l := by
  unfold sortDescArg
  exact (List.reverse_perm _).trans (List.perm_insertionSort _ l)

theorem sortDescArg_sorted (l : List Face) :
    (sortDescArg l).Pairwise (fun a b => b.score ≤ a.score) := by
  haveI : IsTotal Face (fun a b => a.score ≤ b.score) :=
    ⟨fun a b => le_total a.score b.score⟩
  haveI : IsTrans Face (fun a b => a.score ≤ b.score) :=
    ⟨fun a b c hab hbc => le_trans hab hbc⟩
  have h : (l.insertionSort (fun a b => a.score ≤ b.score)).Pairwise
      (fun a b => a.score ≤ b.score) :=
    List.sorted_insertionSort (fun a b : Face => a.score ≤ b.score) l
  unfold sortDescArg
  exact List.pairwise_reverse.2 h

theorem sortDescArg_strict (l : List Face)
    (h : l.Pairwise (fun a b => a.score ≠ b.score)) :
    (sortDescArg l).Pairwise (fun a b => b.score < a.score) := by
  have hne : (sortDescArg l).Pairwise (fun a b => a.score ≠ b.score) :=
    ((sortDescArg_perm l).pairwise_iff (fun hab => Ne.symm hab)).2 h
  have hle := sortDescArg_sorted l
  have := hne.and hle
  exact this.imp (fun hab => lt_of_le_of_ne hab.2 (fun he => hab.1 he.symm))

theorem orderedInsert_of_forall_not (a : Face) :
    ∀ l : List Face, (∀ b ∈ l, ¬ (a.score ≤ b.score)) →
      l.orderedInsert (fun a b => a.score ≤ b.score) a = l ++ [a] := by
  intro l
  induction l with
  | nil => intro _; rfl
  | cons b l ih =>
    intro h
    simp only [List.orderedInsert]
    rw [if_neg (h b (List.mem_cons_self b l))]
    rw [ih (fun b' hb' => h b' (List.mem_cons_of_mem b hb'))]
    rfl

theorem insertionSort_of_strictDesc :
    ∀ l : List Face, l.Pairwise (fun a b => b.score < a.score) →
      l.insertionSort (fun a b => a.score ≤ b.score) = l.reverse := by
  intro l
  induction l with
  | nil => intro _; rfl
  | cons a l ih =>
    intro h
    rw [List.pairwise_cons] at h
    simp only [List.insertionSort]
    rw [ih h.2]
    rw [orderedInsert_of_forall_not a l.reverse
      (fun b hb => not_le.2 (h.1 b (List.mem_reverse.1 hb)))]
    rw [List.reverse_cons]

theorem sortDescArg_of_strictDesc (l : List Face)
    (h : l.Pairwise (fun a b => b.score < a.score)) : sortDescArg l = l := by
  unfold sortDescArg
  rw [insertionSort_of_strictDesc l h, List.reverse_reverse]

theorem nmsRun_sublist (thr : ℚ) :
    ∀ (n : Nat) (l : List Face), l.length ≤ n → List.Sublist (nmsRun thr l) l := by
  intro n
  induction n with
  | zero =>
    intro l hl
    have : l = [] := List.length_eq_zero.1 (Nat.le_zero.1 hl)
    subst this
    simp [nmsRun]
  | succ n ih =>
    intro l hl
    match l with
    | [] => simp [nmsRun]
    | f :: rest =>
      rw [nmsRun]
      refine List.Sublist.cons₂ f ?_
      refine (ih _ ?_).trans (List.filter_sublist rest)
      exact le_trans (List.length_filter_le _ _) (Nat.lt_succ_iff.1 hl)

theorem nmsRun_pairwise (thr : ℚ) :
    ∀ (n : Nat) (l : List Face), l.length ≤ n →
      (nmsRun thr l).Pairwise (fun a b => iouE a.box b.box ≤ thr) := by
  intro n
  induction n with
  | zero =>
    intro l hl
    have : l = [] := List.length_eq_zero.1 (Nat.le_zero.1 hl)
    subst this
    simp [nmsRun]
  | succ n ih =>
    intro l hl
    match l with
    | [] => simp [nmsRun]
    | f :: rest =>
      rw [nmsRun]
      rw [List.pairwise_cons]
      have hlen : (rest.filter (fun g => decide (iouE f.box g.box ≤ thr))).length ≤ n :=
        le_trans (List.length_filter_le _ _) (Nat.lt_succ_iff.1 hl)
      constructor
      · intro g hg
        have hg' : g ∈ rest.filter (fun g => decide (iouE f.box g.box ≤ thr)) :=
          (nmsRun_sublist thr n _ hlen).mem hg
        rcases List.mem_filter.1 hg' with ⟨_, hcond⟩
        exact of_decide_eq_true hcond
      · exact ih _ hlen

theorem nmsRun_id (thr : ℚ) :
    ∀ l : List Face, l.Pairwise (fun a b => iouE a.box b.box ≤ thr) →
      nmsRun thr l = l := by
  intro l
  induction l with
  | nil => simp [nmsRun]
  | cons f rest ih =>
    intro h
    rw [List.pairwise_cons] at h
    rw [nmsRun]
    rw [List.filter_eq_self.2 (fun g hg => decide_eq_true (h.1 g hg))]
    rw [ih h.2]

theorem map_faceAt_range (l : List Face) :
    (List.range l.length).map (faceAt l) = l := by
  induction l with
  | nil => rfl
  | cons a l ih =>
    rw [List.length_cons, List.range_succ_eq_map, List.map_cons, List.map_map]
    have hcomp : (faceAt (a :: l)) ∘ Nat.succ = faceAt l := by
      funext i
      rfl
    rw [hcomp, ih]
    rfl

theorem pairwise_of_length_le_one {R : Face → Face → Prop} {l : List Face}
    (h : l.length ≤ 1) : l.Pairwise R := by
  match l with
  | [] => exact List.Pairwise.nil
  | [a] => exact List.pairwise_singleton R a
  | a :: b :: t => simp at h

theorem mem_jRange {l : List Face} {i j : Nat} :
    j ∈ jRange l i ↔ i + 1 ≤ j ∧ j < l.length := by
  unfold jRange
  rw [List.mem_range'_1]
  omega

theorem innerScan_cons_mem {simThr iouThr : ℚ} {l : List Face} {i j : Nat}
    {js removed : List Nat} (h : j ∈ removed) :
    innerScan simThr iouThr l i (j :: js) removed =
      innerScan simThr iouThr l i js removed := by
  simp only [innerScan]
  rw [if_pos h]

theorem innerScan_cons_merge_le {simThr iouThr : ℚ} {l : List Face} {i j : Nat}
    {js removed : List Nat} (h1 : j ∉ removed)
    (h2 : mergeCond simThr iouThr l i j = true)
    (h3 : (faceAt l j).score ≤ (faceAt l i).score) :
    innerScan simThr iouThr l i (j :: js) removed =
      innerScan simThr iouThr l i js (j :: removed) := by
  simp only [innerScan]
  rw [if_neg h1, if_pos h2, if_pos h3]

theorem innerScan_cons_merge_gt {simThr iouThr : ℚ} {l : List Face} {i j : Nat}
    {js removed : List Nat} (h1 : j ∉ removed)
    (h2 : mergeCond simThr iouThr l i j = true)
    (h3 : ¬ (faceAt l j).score ≤ (faceAt l i).score) :
    innerScan simThr iouThr l i (j :: js) removed = i :: removed := by
  simp only [innerScan]
  rw [if_neg h1, if_pos h2, if_neg h3]

theorem innerScan_cons_nomerge {simThr iouThr : ℚ} {l : List Face} {i j : Nat}
    {js removed : List Nat} (h1 : j ∉ removed)
    (h2 : ¬ mergeCond simThr iouThr l i j = true) :
    innerScan simThr iouThr l i (j :: js) removed =
      innerScan simThr iouThr l i js removed := by
  simp only [innerScan]
  rw [if_neg h1, if_neg h2]

theorem innerScan_subset (simThr iouThr : ℚ) (l : List Face) (i : Nat) :
    ∀ (js removed : List Nat), removed ⊆ innerScan simThr iouThr l i js removed := by
  intro js
  induction js with
  | nil => intro removed a ha; exact ha
  | cons j js ih =>
    intro removed
    by_cases h1 : j ∈ removed
    · rw [innerScan_cons_mem h1]
      exact ih removed
    · by_cases h2 : mergeCond simThr iouThr l i j = true
      · by_cases h3 : (faceAt l j).score ≤ (faceAt l i).score
        · rw [innerScan_cons_merge_le h1 h2 h3]
          exact fun a ha => ih (j :: removed) (List.mem_cons_of_mem j ha)
        · rw [innerScan_cons_merge_gt h1 h2 h3]
          exact fun a ha => List.mem_cons_of_mem i ha
      · rw [innerScan_cons_nomerge h1 h2]
        exact ih removed

theorem innerScan_added (simThr iouThr : ℚ) (l : List Face) (i : Nat) :
    ∀ (js removed : List Nat) (a : Nat), a ∈ innerScan simThr iouThr l i js removed →
      a ∈ removed ∨ a = i ∨ a ∈ js := by
  intro js
  induction js with
  | nil => intro removed a ha; exact Or.inl ha
  | cons j js ih =>
    intro removed a ha
    by_cases h1 : j ∈ removed
    · rw [innerScan_cons_mem h1] at ha
      rcases ih removed a ha with h | h | h
      · exact Or.inl h
      · exact Or.inr (Or.inl h)
      · exact Or.inr (Or.inr (List.mem_cons_of_mem j h))
    · by_cases h2 : mergeCond simThr iouThr l i j = true
      · by_cases h3 : (faceAt l j).score ≤ (faceAt l i).score
        · rw [innerScan_cons_merge_le h1 h2 h3] at ha
          rcases ih (j :: removed) a ha with h | h | h
          · rcases List.mem_cons.1 h with rfl | h'
            · exact Or.inr (Or.inr (List.mem_cons_self a js))
            · exact Or.inl h'
          · exact Or.inr (Or.inl h)
          · exact Or.inr (Or.inr (List.mem_cons_of_mem j h))
        · rw [innerScan_cons_merge_gt h1 h2 h3] at ha
          rcases List.mem_cons.1 ha with rfl | h'
          · exact Or.inr (Or.inl rfl)
          · exact Or.inl h'
      · rw [innerScan_cons_nomerge h1 h2] at ha
        rcases ih removed a ha with h | h | h
        · exact Or.inl h
        · exact Or.inr (Or.inl h)
        · exact Or.inr (Or.inr (List.mem_cons_of_mem j h))

theorem innerScan_complete (simThr iouThr : ℚ) (l : List Face) (i : Nat) :
    ∀ (js removed : List Nat), i ∉ innerScan simThr iouThr l i js removed →
      ∀ j ∈ js, j ∉ innerScan simThr iouThr l i js removed →
        mergeCond simThr iouThr l i j = false := by
  intro js
  induction js with
  | nil => intro removed _ j hj; exact absurd hj (List.not_mem_nil j)
  | cons j0 js ih =>
    intro removed hi j hj hjn
    by_cases h1 : j0 ∈ removed
    · rw [innerScan_cons_mem h1] at hi hjn
      rcases List.mem_cons.1 hj with rfl | hj'
      · exact absurd (innerScan_subset simThr iouThr l i js removed h1) hjn
      · exact ih removed hi j hj' hjn
    · by_cases h2 : mergeCond simThr iouThr l i j0 = true
      · by_cases h3 : (faceAt l j0).score ≤ (faceAt l i).score
        · rw [innerScan_cons_merge_le h1 h2 h3] at hi hjn
          rcases List.mem_cons.1 hj with rfl | hj'
          · exact absurd
              (innerScan_subset simThr iouThr l i js (j :: removed)
                (List.mem_cons_self j removed)) hjn
          · exact ih (j0 :: removed) hi j hj' hjn
        · rw [innerScan_cons_merge_gt h1 h2 h3] at hi
          exact absurd (List.mem_cons_self i removed) hi
      · by_cases hjj : j = j0
        · subst hjj
          exact Bool.eq_false_iff.2 h2
        · rw [innerScan_cons_nomerge h1 h2] at hi hjn
          rcases List.mem_cons.1 hj with heq | hj'
          · exact absurd heq hjj
          · exact ih removed hi j hj' hjn

theorem innerScan_id (simThr iouThr : ℚ) (l : List Face) (i : Nat) :
    ∀ (js removed : List Nat),
      (∀ j ∈ js, mergeCond simThr iouThr l i j = false) →
      innerScan simThr iouThr l i js removed = removed := by
  intro js
  induction js with
  | nil => intro removed _; rfl
  | cons j js ih =>
    intro removed h
    by_cases h1 : j ∈ removed
    · rw [innerScan_cons_mem h1]
      exact ih removed (fun j' hj' => h j' (List.mem_cons_of_mem j hj'))
    · rw [innerScan_cons_nomerge h1
        (by rw [h j (List.mem_cons_self j js)]; simp)]
      exact ih removed (fun j' hj' => h j' (List.mem_cons_of_mem j hj'))

theorem outerScan_cons_mem {simThr iouThr : ℚ} {l : List Face} {i : Nat}
    {is removed : List Nat} (h : i ∈ removed) :
    outerScan simThr iouThr l (i :: is) removed = outerScan simThr iouThr l is removed := by
  simp only [outerScan]
  rw [if_pos h]

theorem outerScan_cons_removed {simThr iouThr : ℚ} {l : List Face} {i : Nat}
    {is removed : List Nat} (h1 : i ∉ removed)
    (h2 : i ∈ innerScan simThr iouThr l i (jRange l i) removed) :
    outerScan simThr iouThr l (i :: is) removed =
      outerScan simThr iouThr l is (innerScan simThr iouThr l i (jRange l i) removed) := by
  simp only [outerScan]
  rw [if_neg h1, if_pos h2]

theorem outerScan_cons_kept {simThr iouThr : ℚ} {l : List Face} {i : Nat}
    {is removed : List Nat} (h1 : i ∉ removed)
    (h2 : i ∉ innerScan simThr iouThr l i (jRange l i) removed) :
    outerScan simThr iouThr l (i :: is) removed =
      ((i :: (outerScan simThr iouThr l is
          (innerScan simThr iouThr l i (jRange l i) removed)).1),
       (outerScan simThr iouThr l is
          (innerScan simThr iouThr l i (jRange l i) removed)).2) := by
  simp only [outerScan]
  rw [if_neg h1, if_neg h2]

theorem outerScan_subset (simThr iouThr : ℚ) (l : List Face) :
    ∀ (is removed : List Nat), removed ⊆ (outerScan simThr iouThr l is removed).2 := by
  intro is
  induction is with
  | nil => intro removed a ha; exact ha
  | cons i is ih =>
    intro removed
    by_cases h1 : i ∈ removed
    · rw [outerScan_cons_mem h1]
      exact ih removed
    · by_cases h2 : i ∈ innerScan simThr iouThr l i (jRange l i) removed
      · rw [outerScan_cons_removed h1 h2]
        exact fun a ha => ih _ (innerScan_subset simThr iouThr l i (jRange l i) removed ha)
      · rw [outerScan_cons_kept h1 h2]
        exact fun a ha => ih _ (innerScan_subset simThr iouThr l i (jRange l i) removed ha)

theorem outerScan_added (simThr iouThr : ℚ) (l : List Face) :
    ∀ (is removed : List Nat) (a : Nat), a ∈ (outerScan simThr iouThr l is removed).2 →
      a ∈ removed ∨ ∃ i ∈ is, i ≤ a := by
  intro is
  induction is with
  | nil => intro removed a ha; exact Or.inl ha
  | cons i is ih =>
    intro removed a ha
    by_cases h1 : i ∈ removed
    · rw [outerScan_cons_mem h1] at ha
      rcases ih removed a ha with h | ⟨i', hi', hle⟩
      · exact Or.inl h
      · exact Or.inr ⟨i', List.mem_cons_of_mem i hi', hle⟩
    · have hinner : ∀ b : Nat, b ∈ innerScan simThr iouThr l i (jRange l i) removed →
          b ∈ removed ∨ i ≤ b := by
        intro b hb
        rcases innerScan_added simThr iouThr l i (jRange l i) removed b hb with h | h | h
        · exact Or.inl h
        · exact Or.inr (le_of_eq h.symm)
        · exact Or.inr (le_of_lt (mem_jRange.1 h).1)
      by_cases h2 : i ∈ innerScan simThr iouThr l i (jRange l i) removed
      · rw [outerScan_cons_removed h1 h2] at ha
        rcases ih _ a ha with h | ⟨i', hi', hle⟩
        · rcases hinner a h with h' | h'
          · exact Or.inl h'
          · exact Or.inr ⟨i, List.mem_cons_self i is, h'⟩
        · exact Or.inr ⟨i', List.mem_cons_of_mem i hi', hle⟩
      · rw [outerScan_cons_kept h1 h2] at ha
        simp only at ha
        rcases ih _ a ha with h | ⟨i', hi', hle⟩
        · rcases hinner a h with h' | h'
          · exact Or.inl h'
          · exact Or.inr ⟨i, List.mem_cons_self i is, h'⟩
        · exact Or.inr ⟨i', List.mem_cons_of_mem i hi', hle⟩

theorem outerScan_keep_sublist (simThr iouThr : ℚ) (l : List Face) :
    ∀ (is removed : List Nat),
      List.Sublist (outerScan simThr iouThr l is removed).1 is := by
  intro is
  induction is with
  | nil => intro removed; simp [outerScan]
  | cons i is ih =>
    intro removed
    by_cases h1 : i ∈ removed
    · rw [outerScan_cons_mem h1]
      exact (ih removed).cons i
    · by_cases h2 : i ∈ innerScan simThr iouThr l i (jRange l i) removed
      · rw [outerScan_cons_removed h1 h2]
        exact (ih _).cons i
      · rw [outerScan_cons_kept h1 h2]
        exact (ih _).cons₂ i

theorem outerScan_keep_not_removed (simThr iouThr : ℚ) (l : List Face) :
    ∀ (is removed : List Nat), is.Pairwise (· < ·) →
      ∀ j ∈ (outerScan simThr iouThr l is removed).1,
        j ∉ (outerScan simThr iouThr l is removed).2 := by
  intro is
  induction is with
  | nil => intro removed _ j hj; simp [outerScan] at hj
  | cons i is ih =>
    intro removed hpw j hj
    rw [List.pairwise_cons] at hpw
    by_cases h1 : i ∈ removed
    · rw [outerScan_cons_mem h1] at hj ⊢
      exact ih removed hpw.2 j hj
    · by_cases h2 : i ∈ innerScan simThr iouThr l i (jRange l i) removed
      · rw [outerScan_cons_removed h1 h2] at hj ⊢
        exact ih _ hpw.2 j hj
      · rw [outerScan_cons_kept h1 h2] at hj ⊢
        simp only at hj ⊢
        rcases List.mem_cons.1 hj with rfl | hj'
        · intro hin
          rcases outerScan_added simThr iouThr l is _ j hin with h | ⟨i', hi', hle⟩
          · exact h2 h
          · exact Nat.lt_irrefl j (lt_of_lt_of_le (hpw.1 i' hi') hle)
        · exact ih _ hpw.2 j hj'

theorem outerScan_no_merge (simThr iouThr : ℚ) (l : List Face) :
    ∀ (is removed : List Nat), is.Pairwise (· < ·) →
      (∀ a ∈ is, a < l.length) →
      ∀ a b : Nat, a ∈ (outerScan simThr iouThr l is removed).1 →
        b ∈ (outerScan simThr iouThr l is removed).1 → a < b →
        mergeCond simThr iouThr l a b = false := by
  intro is
  induction is with
  | nil => intro removed _ _ a b ha; simp [outerScan] at ha
  | cons i is ih =>
    intro removed hpw hlen a b ha hb hab
    rw [List.pairwise_cons] at hpw
    have hlen' : ∀ a ∈ is, a < l.length :=
      fun a' ha' => hlen a' (List.mem_cons_of_mem i ha')
    by_cases h1 : i ∈ removed
    · rw [outerScan_cons_mem h1] at ha hb
      exact ih removed hpw.2 hlen' a b ha hb hab
    · by_cases h2 : i ∈ innerScan simThr iouThr l i (jRange l i) removed
      · rw [outerScan_cons_removed h1 h2] at ha hb
        exact ih _ hpw.2 hlen' a b ha hb hab
      · rw [outerScan_cons_kept h1 h2] at ha hb
        simp only at ha hb
        rcases List.mem_cons.1 ha with ha0 | ha'
        · rcases List.mem_cons.1 hb with hb0 | hb'
          · rw [ha0, hb0] at hab
            exact absurd hab (Nat.lt_irrefl _)
          · -- b is a kept later index: it was scanned by i's inner loop and not removed
            have hbis : b ∈ is :=
              (outerScan_keep_sublist simThr iouThr l is _).mem hb'
            have hblen : b < l.length := hlen' b hbis
            have hbj : b ∈ jRange l i :=
              mem_jRange.2 ⟨Nat.succ_le_of_lt (hpw.1 b hbis), hblen⟩
            have hbnr : b ∉ innerScan simThr iouThr l i (jRange l i) removed := by
              intro hin
              exact outerScan_keep_not_removed simThr iouThr l is _ hpw.2 b hb'
                (outerScan_subset simThr iouThr l is _ hin)
            rw [ha0]
            exact innerScan_complete simThr iouThr l i (jRange l i) removed h2 b hbj hbnr
        · rcases List.mem_cons.1 hb with hb0 | hb'
          · have hais : a ∈ is :=
              (outerScan_keep_sublist simThr iouThr l is _).mem ha'
            rw [hb0] at hab
            exact absurd hab (Nat.not_lt.2 (le_of_lt (hpw.1 a hais)))
          · exact ih _ hpw.2 hlen' a b ha' hb' hab

theorem outerScan_id (simThr iouThr : ℚ) (l : List Face) :
    ∀ is : List Nat,
      (∀ i ∈ is, ∀ j ∈ jRange l i, mergeCond simThr iouThr l i j = false) →
      outerScan simThr iouThr l is [] = (is, []) := by
  intro is
  induction is with
  | nil => intro _; rfl
  | cons i is ih =>
    intro h
    have hid : innerScan simThr iouThr l i (jRange l i) [] = [] :=
      innerScan_id simThr iouThr l i (jRange l i) []
        (fun j hj => h i (List.mem_cons_self i is) j hj)
    have h1 : i ∉ ([] : List Nat) := List.not_mem_nil i
    have h2 : i ∉ innerScan simThr iouThr l i (jRange l i) [] := by
      rw [hid]
      exact List.not_mem_nil i
    rw [outerScan_cons_kept h1 h2, hid,
      ih (fun i' hi' => h i' (List.mem_cons_of_mem i hi'))]

theorem faceAt_eq_get : ∀ (l : List Face) (i : Nat) (h : i < l.length),
    faceAt l i = l.get ⟨i, h⟩ := by
  intro l
  induction l with
  | nil => intro i h; simp at h
  | cons a l ih =>
    intro i h
    cases i with
    | zero => rfl
    | succ n => exact ih n (Nat.lt_of_succ_lt_succ h)

theorem dedupByEmbedding_sublist (simThr iouThr : ℚ) (l : List Face) :
    List.Sublist (dedupByEmbedding simThr iouThr l) l := by
  unfold dedupByEmbedding
  by_cases h : l.length ≤ 1
  · rw [if_pos h]
  · rw [if_neg h]
    have hsub := (outerScan_keep_sublist simThr iouThr l (List.range l.length) []).map
      (faceAt l)
    rw [map_faceAt_range] at hsub
    exact hsub

theorem dedupByEmbedding_no_merge (simThr iouThr : ℚ) (l : List Face) :
    (dedupByEmbedding simThr iouThr l).Pairwise
      (fun a b => mergeFaceCond simThr iouThr a b = false) := by
  unfold dedupByEmbedding
  by_cases h : l.length ≤ 1
  · rw [if_pos h]
    exact pairwise_of_length_le_one h
  · rw [if_neg h]
    rw [List.pairwise_map]
    have hpwkeep : (outerScan simThr iouThr l (List.range l.length) []).1.Pairwise
        (· < ·) :=
      (List.pairwise_lt_range l.length).sublist
        (outerScan_keep_sublist simThr iouThr l (List.range l.length) [])
    refine hpwkeep.imp_of_mem ?_
    intro a b ha hb hab
    exact outerScan_no_merge simThr iouThr l (List.range l.length) []
      (List.pairwise_lt_range l.length) (fun x hx => List.mem_range.1 hx) a b ha hb hab

theorem dedupByEmbedding_id (simThr iouThr : ℚ) (l : List Face)
    (h : l.Pairwise (fun a b => mergeFaceCond simThr iouThr a b = false)) :
    dedupByEmbedding simThr iouThr l = l := by
  unfold dedupByEmbedding
  by_cases hl : l.length ≤ 1
  · rw [if_pos hl]
  · rw [if_neg hl]
    have hcond : ∀ i ∈ List.range l.length, ∀ j ∈ jRange l i,
        mergeCond simThr iouThr l i j = false := by
      intro i hi j hj
      have hi' : i < l.length := List.mem_range.1 hi
      obtain ⟨hij, hj'⟩ := mem_jRange.1 hj
      have hpg := List.pairwise_iff_get.1 h ⟨i, hi'⟩ ⟨j, hj'⟩ hij
      unfold mergeCond
      rw [faceAt_eq_get l i hi', faceAt_eq_get l j hj']
      exact hpg
    rw [outerScan_id simThr iouThr l (List.range l.length) hcond]
    exact map_faceAt_range l

/-- Every list satisfying the three invariants established by one run of
the deduplication pass — strictly descending scores, pairwise IoU at or
below the NMS threshold, and no pair satisfying the merge condition — is a
fixed point of the pass. -/
theorem detectFacesDedup_fixpoint (D : List Face)
    (h1 : D.Pairwise (fun a b => b.score < a.score))
    (h2 : D.Pairwise (fun a b => iouE a.box b.box ≤ 1/10))
    (h3 : D.Pairwise (fun a b => mergeFaceCond (19/20) (3/10) a b = false)) :
    detectFacesDedup D = D := by
  unfold detectFacesDedup
  by_cases hlen : 1 < D.length
  · have hrm : removeDuplicateFaces (1/10) D = D := by
      unfold removeDuplicateFaces nms
      rw [if_neg (not_le.2 hlen), sortDescArg_of_strictDesc D h1, nmsRun_id _ D h2]
    have hl1 : (if 1 < D.length then removeDuplicateFaces (1/10) D else D) = D := by
      rw [if_pos hlen, hrm]
    rw [hl1, if_pos hlen]
    exact dedupByEmbedding_id _ _ D h3
  · have hl1 : (if 1 < D.length then removeDuplicateFaces (1/10) D else D) = D :=
      if_neg hlen
    rw [hl1, if_neg hlen]

end Dedup

/-- CLAIM C5 counterexample: two detections with EQUAL confidence scores,
disjoint boxes and orthogonal embeddings.  Nothing is suppressed or merged,
but `scores.argsort()[::-1]` flips the order of the score-tied pair on each
application, so running the deduplication pass twice yields a different
output list than running it once. -/
theorem c5_dedup_idempotent_counterexample :
    Dedup.detectFacesDedup (Dedup.detectFacesDedup
      [⟨⟨0, 0, 1, 1⟩, 1/2, [1, 0]⟩, ⟨⟨10, 10, 11, 11⟩, 1/2, [0, 1]⟩]) ≠
    Dedup.detectFacesDedup
      [⟨⟨0, 0, 1, 1⟩, 1/2, [1, 0]⟩, ⟨⟨10, 10, 11, 11⟩, 1/2, [0, 1]⟩] := by
  have hsort1 : Dedup.sortDescArg
      [⟨⟨0, 0, 1, 1⟩, 1/2, [1, 0]⟩, ⟨⟨10, 10, 11, 11⟩, 1/2, [0, 1]⟩] =
      [⟨⟨10, 10, 11, 11⟩, 1/2, [0, 1]⟩, ⟨⟨0, 0, 1, 1⟩, 1/2, [1, 0]⟩] := by
    norm_num [Dedup.sortDescArg, List.insertionSort, List.orderedInsert]
  have hsort2 : Dedup.sortDescArg
      [⟨⟨10, 10, 11, 11⟩, 1/2, [0, 1]⟩, ⟨⟨0, 0, 1, 1⟩, 1/2, [1, 0]⟩] =
      [⟨⟨0, 0, 1, 1⟩, 1/2, [1, 0]⟩, ⟨⟨10, 10, 11, 11⟩, 1/2, [0, 1]⟩] := by
    norm_num [Dedup.sortDescArg, List.insertionSort, List.orderedInsert]
  have hnms1 : Dedup.nmsRun (1/10)
      [⟨⟨10, 10, 11, 11⟩, 1/2, [0, 1]⟩, ⟨⟨0, 0, 1, 1⟩, 1/2, [1, 0]⟩] =
      [⟨⟨10, 10, 11, 11⟩, 1/2, [0, 1]⟩, ⟨⟨0, 0, 1, 1⟩, 1/2, [1, 0]⟩] := by
    rw [Dedup.nmsRun.eq_def]
    norm_num [Dedup.iouE, min_def, max_def]
    rw [Dedup.nmsRun.eq_def]
    norm_num
    rw [Dedup.nmsRun.eq_def]
  have hnms2 : Dedup.nmsRun (1/10)
      [⟨⟨0, 0, 1, 1⟩, 1/2, [1, 0]⟩, ⟨⟨10, 10, 11, 11⟩, 1/2, [0, 1]⟩] =
      [⟨⟨0, 0, 1, 1⟩, 1/2, [1, 0]⟩, ⟨⟨10, 10, 11, 11⟩, 1/2, [0, 1]⟩] := by
    rw [Dedup.nmsRun.eq_def]
    norm_num [Dedup.iouE, min_def, max_def]
    rw [Dedup.nmsRun.eq_def]
    norm_num
    rw [Dedup.nmsRun.eq_def]
  have hmf1 : ([⟨⟨10, 10, 11, 11⟩, 1/2, [0, 1]⟩, ⟨⟨0, 0, 1, 1⟩, 1/2, [1, 0]⟩] :
      List Dedup.Face).Pairwise
      (fun a b => Dedup.mergeFaceCond (19/20) (3/10) a b = false) := by
    refine List.Pairwise.cons ?_ (List.pairwise_singleton _ _)
    intro b hb
    rw [List.mem_singleton.1 hb]
    norm_num [Dedup.mergeFaceCond, Dedup.iouE, min_def, max_def, Dedup.embSimGE,
      Dedup.sumSqQ, Dedup.dotQ]
  have hmf2 : ([⟨⟨0, 0, 1, 1⟩, 1/2, [1, 0]⟩, ⟨⟨10, 10, 11, 11⟩, 1/2, [0, 1]⟩] :
      List Dedup.Face).Pairwise
      (fun a b => Dedup.mergeFaceCond (19/20) (3/10) a b = false) := by
    refine List.Pairwise.cons ?_ (List.pairwise_singleton _ _)
    intro b hb
    rw [List.mem_singleton.1 hb]
    norm_num [Dedup.mergeFaceCond, Dedup.iouE, min_def, max_def, Dedup.embSimGE,
      Dedup.sumSqQ, Dedup.dotQ]
  have hrun1 : Dedup.detectFacesDedup
      [⟨⟨0, 0, 1, 1⟩, 1/2, [1, 0]⟩, ⟨⟨10, 10, 11, 11⟩, 1/2, [0, 1]⟩] =
      [⟨⟨10, 10, 11, 11⟩, 1/2, [0, 1]⟩, ⟨⟨0, 0, 1, 1⟩, 1/2, [1, 0]⟩] := by
    have hrm : Dedup.removeDuplicateFaces (1/10)
        [⟨⟨0, 0, 1, 1⟩, 1/2, [1, 0]⟩, ⟨⟨10, 10, 11, 11⟩, 1/2, [0, 1]⟩] =
        [⟨⟨10, 10, 11, 11⟩, 1/2, [0, 1]⟩, ⟨⟨0, 0, 1, 1⟩, 1/2, [1, 0]⟩] := by
      unfold Dedup.removeDuplicateFaces Dedup.nms
      rw [if_neg (by norm_num), hsort1, hnms1]
    have hg1 : 1 < ([⟨⟨0, 0, 1, 1⟩, 1/2, [1, 0]⟩, ⟨⟨10, 10, 11, 11⟩, 1/2, [0, 1]⟩] : List Dedup.Face).length := by norm_num
    have hg2 : 1 < ([⟨⟨10, 10, 11, 11⟩, 1/2, [0, 1]⟩, ⟨⟨0, 0, 1, 1⟩, 1/2, [1, 0]⟩] : List Dedup.Face).length := by norm_num
    unfold Dedup.detectFacesDedup
    rw [if_pos hg1, hrm, if_pos hg2]
    exact Dedup.dedupByEmbedding_id _ _ _ hmf1
  have hrun2 : Dedup.detectFacesDedup
      [⟨⟨10, 10, 11, 11⟩, 1/2, [0, 1]⟩, ⟨⟨0, 0, 1, 1⟩, 1/2, [1, 0]⟩] =
      [⟨⟨0, 0, 1, 1⟩, 1/2, [1, 0]⟩, ⟨⟨10, 10, 11, 11⟩, 1/2, [0, 1]⟩] := by
    have hrm : Dedup.removeDuplicateFaces (1/10)
        [⟨⟨10, 10, 11, 11⟩, 1/2, [0, 1]⟩, ⟨⟨0, 0, 1, 1⟩, 1/2, [1, 0]⟩] =
        [⟨⟨0, 0, 1, 1⟩, 1/2, [1, 0]⟩, ⟨⟨10, 10, 11, 11⟩, 1/2, [0, 1]⟩] := by
      unfold Dedup.removeDuplicateFaces Dedup.nms
      rw [if_neg (by norm_num), hsort2, hnms2]
    have hg1 : 1 < ([⟨⟨10, 10, 11, 11⟩, 1/2, [0, 1]⟩, ⟨⟨0, 0, 1, 1⟩, 1/2, [1, 0]⟩] : List Dedup.Face).length := by norm_num
    have hg2 : 1 < ([⟨⟨0, 0, 1, 1⟩, 1/2, [1, 0]⟩, ⟨⟨10, 10, 11, 11⟩, 1/2, [0, 1]⟩] : List Dedup.Face).length := by norm_num
    unfold Dedup.detectFacesDedup
    rw [if_pos hg1, hrm, if_pos hg2]
    exact Dedup.dedupByEmbedding_id _ _ _ hmf2
  rw [hrun1, hrun2]
  intro h
  have hh := List.head_eq_of_cons_eq h
  norm_num [Dedup.Face.mk.injEq, Dedup.QBox.mk.injEq] at hh

/-- CLAIM C5 (amended): for every detection list with pairwise-distinct
confidence scores, the deduplication pass of `detect_faces` (greedy NMS at
IoU 0.1 followed by the embedding-similarity/IoU merge at 0.95/0.3) is
idempotent: applying it twice yields the same output list as applying it
once. -/
theorem c5_dedup_idempotent (l : List Dedup.Face)
    (hsc : l.Pairwise (fun a b => a.score ≠ b.score)) :
    Dedup.detectFacesDedup (Dedup.detectFacesDedup l) = Dedup.detectFacesDedup l := by
  by_cases hshort : (Dedup.detectFacesDedup l).length ≤ 1
  · exact Dedup.detectFacesDedup_fixpoint _ (Dedup.pairwise_of_length_le_one hshort)
      (Dedup.pairwise_of_length_le_one hshort) (Dedup.pairwise_of_length_le_one hshort)
  · have hllen : 1 < l.length := by
      by_contra hc
      rw [not_lt] at hc
      have hid : Dedup.detectFacesDedup l = l := by
        unfold Dedup.detectFacesDedup
        have h1 : ¬ 1 < l.length := not_lt.2 hc
        rw [if_neg h1, if_neg h1]
      rw [hid] at hshort
      exact hshort hc
    have hl1eq : (if 1 < l.length then Dedup.removeDuplicateFaces (1/10) l else l) =
        Dedup.nmsRun (1/10) (Dedup.sortDescArg l) := by
      rw [if_pos hllen]
      unfold Dedup.removeDuplicateFaces Dedup.nms
      rw [if_neg (not_le.2 hllen)]
    have hA : (Dedup.nmsRun (1/10) (Dedup.sortDescArg l)).Pairwise
        (fun a b => b.score < a.score) :=
      (Dedup.sortDescArg_strict l hsc).sublist
        (Dedup.nmsRun_sublist (1/10) (Dedup.sortDescArg l).length _ le_rfl)
    have hB : (Dedup.nmsRun (1/10) (Dedup.sortDescArg l)).Pairwise
        (fun a b => Dedup.iouE a.box b.box ≤ 1/10) :=
      Dedup.nmsRun_pairwise (1/10) (Dedup.sortDescArg l).length _ le_rfl
    have hD : Dedup.detectFacesDedup l =
        if 1 < (Dedup.nmsRun (1/10) (Dedup.sortDescArg l)).length then
          Dedup.dedupByEmbedding (19/20) (3/10) (Dedup.nmsRun (1/10) (Dedup.sortDescArg l))
        else Dedup.nmsRun (1/10) (Dedup.sortDescArg l) := by
      unfold Dedup.detectFacesDedup
      rw [hl1eq]
    by_cases hl1len : 1 < (Dedup.nmsRun (1/10) (Dedup.sortDescArg l)).length
    · have hDeq : Dedup.detectFacesDedup l =
          Dedup.dedupByEmbedding (19/20) (3/10)
            (Dedup.nmsRun (1/10) (Dedup.sortDescArg l)) := by
        rw [hD, if_pos hl1len]
      have hsub : List.Sublist (Dedup.detectFacesDedup l)
          (Dedup.nmsRun (1/10) (Dedup.sortDescArg l)) := by
        rw [hDeq]
        exact Dedup.dedupByEmbedding_sublist _ _ _
      refine Dedup.detectFacesDedup_fixpoint _ (hA.sublist hsub) (hB.sublist hsub) ?_
      rw [hDeq]
      exact Dedup.dedupByEmbedding_no_merge _ _ _
    · exfalso
      apply hshort
      rw [hD, if_neg hl1len]
      exact not_lt.1 hl1len

/-- CLAIM C5 witness: the amended idempotence at a concrete two-detection
list with distinct scores. -/
theorem c5_dedup_idempotent_witness :
    Dedup.detectFacesDedup (Dedup.detectFacesDedup
      [⟨⟨0, 0, 1, 1⟩, 3/4, [1, 0]⟩, ⟨⟨10, 10, 11, 11⟩, 1/2, [0, 1]⟩]) =
    Dedup.detectFacesDedup
      [⟨⟨0, 0, 1, 1⟩, 3/4, [1, 0]⟩, ⟨⟨10, 10, 11, 11⟩, 1/2, [0, 1]⟩] :=
  c5_dedup_idempotent
    [⟨⟨0, 0, 1, 1⟩, 3/4, [1, 0]⟩, ⟨⟨10, 10, 11, 11⟩, 1/2, [0, 1]⟩]
    (by norm_num)

end Orbit

namespace Orbit

/-- CLAIM C8: analysis-job submission never blocks or raises (the embedding
is a total function); with the queue at its fixed capacity 3 the job is
silently dropped and the queue is returned unchanged; the capacity bound 3
is preserved by every submission; and after a dropped submission at time
`now` the same face is attempted again at any later time
`now2 > now + cooldown`, and is actually enqueued whenever the queue has
room by then and the crop is non-empty. -/
theorem c8_analysis_queue_drop_on_full
    (s : Sched.FaceSched) (now now2 : ℚ) (j j2 : Sched.AnalysisJob)
    (hfull : s.queue.length = 3)
    (helig : Sched.analysisCooldown < now - s.trackedTime)
    (hlater : Sched.analysisCooldown < now2 - now) :
    Sched.tryQueueAnalysis s.queue j = s.queue ∧
    (Sched.schedStep now j s).1.queue = s.queue ∧
    (Sched.schedStep now j s).2 = true ∧
    (∀ q : List Sched.AnalysisJob, q.length ≤ 3 →
      (Sched.tryQueueAnalysis q j).length ≤ 3) ∧
    (Sched.schedStep now2 j2 (Sched.schedStep now j s).1).2 = true ∧
    (∀ q : List Sched.AnalysisJob, q.length < 3 → j2.regionSize ≠ 0 →
      Sched.tryQueueAnalysis q j2 = q ++ [j2]) := by
  have hdrop : Sched.tryQueueAnalysis s.queue j = s.queue := by
    unfold Sched.tryQueueAnalysis Sched.analysisQueueCapacity
    rw [hfull]
    simp
  have hstep : Sched.schedStep now j s =
      ({ queue := Sched.tryQueueAnalysis s.queue j, trackedTime := now,
         statusTime := some now }, true) := by
    unfold Sched.schedStep
    rw [if_pos helig]
  refine ⟨hdrop, ?_, ?_, ?_, ?_, ?_⟩
  · rw [hstep, hdrop]
  · rw [hstep]
  · intro q hq
    unfold Sched.tryQueueAnalysis Sched.analysisQueueCapacity
    by_cases h0 : j.regionSize = 0
    · simpa [h0] using hq
    · by_cases hc : 3 ≤ q.length
      · simpa [h0, hc] using hq
      · simp only [h0, hc, if_false]
        simp only [List.length_append, List.length_singleton]
        omega
  · rw [hstep]
    unfold Sched.schedStep
    rw [if_pos]
    simpa using hlater
  · intro q hq hj2
    unfold Sched.tryQueueAnalysis Sched.analysisQueueCapacity
    rw [if_neg hj2, if_neg (by omega)]

/-- CLAIM C8 witness: a concrete full queue at time 0, a drop at time 2 and
a successful retry at time 4. -/
theorem c8_analysis_queue_drop_on_full_witness :
    (Sched.tryQueueAnalysis [⟨"a", 1, 0⟩, ⟨"b", 1, 0⟩, ⟨"c", 1, 0⟩] ⟨"d", 1, 2⟩ =
      [⟨"a", 1, 0⟩, ⟨"b", 1, 0⟩, ⟨"c", 1, 0⟩]) ∧
    (Sched.schedStep 2 ⟨"d", 1, 2⟩
      ⟨[⟨"a", 1, 0⟩, ⟨"b", 1, 0⟩, ⟨"c", 1, 0⟩], 0, none⟩).1.queue =
      [⟨"a", 1, 0⟩, ⟨"b", 1, 0⟩, ⟨"c", 1, 0⟩] ∧
    (Sched.schedStep 2 ⟨"d", 1, 2⟩
      ⟨[⟨"a", 1, 0⟩, ⟨"b", 1, 0⟩, ⟨"c", 1, 0⟩], 0, none⟩).2 = true ∧
    (∀ q : List Sched.AnalysisJob, q.length ≤ 3 →
      (Sched.tryQueueAnalysis q ⟨"d", 1, 2⟩).length ≤ 3) ∧
    (Sched.schedStep 4 ⟨"d", 1, 4⟩
      (Sched.schedStep 2 ⟨"d", 1, 2⟩
        ⟨[⟨"a", 1, 0⟩, ⟨"b", 1, 0⟩, ⟨"c", 1, 0⟩], 0, none⟩).1).2 = true ∧
    (∀ q : List Sched.AnalysisJob, q.length < 3 → (⟨"d", 1, 4⟩ : Sched.AnalysisJob).regionSize ≠ 0 →
      Sched.tryQueueAnalysis q ⟨"d", 1, 4⟩ = q ++ [⟨"d", 1, 4⟩]) :=
  c8_analysis_queue_drop_on_full
    ⟨[⟨"a", 1, 0⟩, ⟨"b", 1, 0⟩, ⟨"c", 1, 0⟩], 0, none⟩ 2 4 ⟨"d", 1, 2⟩ ⟨"d", 1, 4⟩
    (by decide) (by norm_num [Sched.analysisCooldown]) (by norm_num [Sched.analysisCooldown])

/-- CLAIM C9 evaluation at the failing input: when the external search
raises (so `_run_image_search_sync` returns `None`, modelled by
`outcome = none`), the search worker performs no cache update at all — the
face crop is not persisted, contradicting "the worker persists the face
crop ... regardless of the outcome ... including a search that raises an
exception".  For every returned (truthy) result the crop IS persisted, with
status `"failed"` when the search did not find a person. -/
theorem c9_search_exception_loses_face_crop :
    Search.searchWorkerHandle [] 7 none = [] ∧
    (∀ r : Search.SearchOutcome,
      Search.searchWorkerHandle [] 7 (some r) =
        [{ trackId := 7,
           searchStatus := if r.success ∧ r.foundPerson then "successful" else "failed",
           hasImage := true }]) := by
  exact ⟨rfl, fun r => rfl⟩

end Orbit

namespace Orbit

/-- CLAIM C10 counterexample: a detection record whose name is the non-null
empty string and whose similarity is 0.8 gets `recognized = false`, although
the claim ("true exactly when name is non-null and similarity ≥ 0.7")
requires `true` here. -/
theorem c10_recognized_flag_empty_name_counterexample :
    Flag.recognizedFlag (some "") (4/5) = false ∧
    (some "" : Option String) ≠ none ∧ (7 : ℚ)/10 ≤ 4/5 := by
  refine ⟨rfl, by simp, by norm_num⟩

/-- CLAIM C10 (amended): the `recognized` flag of a per-frame detection
record is true exactly when the record's name is non-null AND non-empty and
its similarity is ≥ 0.7; the fixed constant 0.7 appears in the definition
independently of any configured recognition threshold. -/
theorem c10_recognized_flag_iff (name : Option String) (similarity : ℚ) :
    Flag.recognizedFlag name similarity = true ↔
      (name ≠ none ∧ name ≠ some "" ∧ (7 : ℚ)/10 ≤ similarity) := by
  cases name with
  | none => simp [Flag.recognizedFlag]
  | some s =>
    by_cases hs : s = ""
    · subst hs; simp [Flag.recognizedFlag]
    · by_cases h0 : similarity = 0
      · subst h0
        simp [Flag.recognizedFlag, hs]
      · simp [Flag.recognizedFlag, hs, h0]

end Orbit
